import Mathlib

/-!
Verification development for the `search-engine` repository (crawler, index
builder, PageRank, hybrid ranker, suggestion engine).

Strings are modelled as `List Char` (`Chars`), so that every operation is an
executable structural recursion and concrete runs can be settled by `decide`.
Python `float` arithmetic is modelled over `ℚ` (exact rationals); the only
transcendental function involved, `math.log`, is modelled as `Real.log` in the
few definitions that need it, and is otherwise abstracted as a function
parameter so that everything else stays computable.

Section 1 embeds the parts of `urllib.parse` (CPython) that the repository
calls: `urlsplit`, `urlparse`/`_splitparams`, `urljoin` specialised to the
base `"/"` (the only base `norm_url` uses), `urlunsplit`/`urlunparse`.
Omissions from CPython, none of which the claims touch: bytes handling and
IPv6-bracket validation (which can raise `ValueError`; `norm_url` would map
such inputs to `""` through its `except` clause).
-/

/-- Characters of a Python `str`, modelled as a list of characters. -/
abbrev Chars := List Char

/-- Python `str.lower()` restricted to ASCII case mapping (all strings the
repository lowercases are URLs/ASCII tokens). -/
def lowerChars (s : Chars) : Chars := s.map Char.toLower

/-- Membership test used throughout for Python `x in dict` / `x in set`. -/
def memChars (x : Chars) (l : List Chars) : Bool := l.contains x

/-- Split a list at the first occurrence of `c`: returns the part before it
and, when `c` occurs, the part after it.  Models Python
`s.split(c, 1)` together with the `c in s` test. -/
def splitAtFirstChar (c : Char) : Chars → Chars × Option Chars
  | [] => ([], none)
  | x :: xs =>
    if x = c then ([], some xs)
    else
      let r := splitAtFirstChar c xs
      (x :: r.1, r.2)

/-- Split a list at the last occurrence of `c` (Python `s.rsplit(c, 1)`). -/
def splitAtLastChar (c : Char) (l : Chars) : Chars × Option Chars :=
  match splitAtFirstChar c l.reverse with
  | (b, some a) => (a.reverse, some b.reverse)
  | (_, none) => (l, none)

/-- Python `s.split(c)` (keeping empty parts; `"".split(c) = ['']`). -/
def splitOnChar (c : Char) : Chars → List Chars
  | [] => [[]]
  | x :: xs =>
    if x = c then [] :: splitOnChar c xs
    else
      match splitOnChar c xs with
      | h :: t => (x :: h) :: t
      | [] => [[x]]

/-- Python `c.join(parts)` for a single-character separator. -/
def joinChar (c : Char) (parts : List Chars) : Chars :=
  List.intercalate [c] parts

/-- Python substring test `needle in hay` (empty needle matches). -/
def containsSub : Chars → Chars → Bool
  | n, h =>
    if n.isPrefixOf h then true
    else
      match h with
      | [] => false
      | _ :: hs => containsSub n hs

/-- Result of `urllib.parse.urlsplit`. -/
structure SplitRes where
  scheme : Chars
  netloc : Chars
  path : Chars
  query : Chars
  frag : Chars
deriving DecidableEq, Repr

/-- Characters allowed in a URL scheme (`urllib.parse.scheme_chars`). -/
def isSchemeChar (c : Char) : Bool :=
  c.isAlphanum || c = '+' || c = '-' || c = '.'

/-- Characters that terminate the netloc part (`urllib.parse._splitnetloc`
stops at the first of `/?#`). -/
def isNetlocEnd (c : Char) : Bool := c = '/' || c = '?' || c = '#'

/-- C0 control characters and space, stripped from the left of a URL by
CPython 3.11 `urlsplit` (`_WHATWG_C0_CONTROL_OR_SPACE`). -/
def isC0OrSpace (c : Char) : Bool := decide (c.val ≤ 32)

/-- Tab, carriage return, and newline, removed everywhere in a URL by
CPython 3.11 `urlsplit` (`_UNSAFE_URL_BYTES_TO_REMOVE`). -/
def isUnsafeUrlByte (c : Char) : Bool := c = '\t' || c = '\r' || c = '\n'

/-- `urllib.parse._splitnetloc`: on a `//`-prefixed rest, split off the
netloc (up to the first `/`, `?` or `#`); otherwise no netloc. -/
def splitNetloc (rest : Chars) : Chars × Chars :=
  match rest with
  | '/' :: '/' :: t => (t.takeWhile (fun c => !isNetlocEnd c), t.dropWhile (fun c => !isNetlocEnd c))
  | _ => ([], rest)

/-- Embedding of CPython 3.11 `urllib.parse.urlsplit(url, scheme=dflt)`:
left-strip C0 controls and spaces, remove tab/CR/LF, then detect a scheme at
the first `:` (first character alphabetic, all characters before the colon
scheme characters; the scheme is lowercased by `urlsplit` itself), then a
`//`-netloc up to the first `/?#`, then split off the fragment at the first
`#` and the query at the first `?`.  The default scheme is always `[]` in
this development, so its CPython-side sanitisation is omitted. -/
def urlsplit (dflt : Chars) (url : Chars) : SplitRes :=
  let url := (url.dropWhile isC0OrSpace).filter (fun c => !isUnsafeUrlByte c)
  let schemeRest : Chars × Chars :=
    match splitAtFirstChar ':' url with
    | (before, some after) =>
      if before ≠ [] ∧ (before.headD 'a').isAlpha ∧ before.all isSchemeChar then
        (lowerChars before, after)
      else (dflt, url)
    | (_, none) => (dflt, url)
  let rest := schemeRest.2
  let netlocRest : Chars × Chars := splitNetloc rest
  let pqf := netlocRest.2
  let pqFrag : Chars × Chars :=
    match splitAtFirstChar '#' pqf with
    | (b, some a) => (b, a)
    | (_, none) => (pqf, [])
  let pathQuery : Chars × Chars :=
    match splitAtFirstChar '?' pqFrag.1 with
    | (b, some a) => (b, a)
    | (_, none) => (pqFrag.1, [])
  ⟨schemeRest.1, netlocRest.1, pathQuery.1, pathQuery.2, pqFrag.2⟩

/-- Schemes of `urllib.parse.uses_relative`. -/
def usesRelative : List Chars :=
  [[], ("ftp").data, ("http").data, ("gopher").data, ("nntp").data,
   ("imap").data, ("wais").data, ("file").data, ("https").data,
   ("shttp").data, ("mms").data, ("prospero").data, ("rtsp").data,
   ("rtspu").data, ("sftp").data, ("svn").data, ("svn+ssh").data,
   ("ws").data, ("wss").data]

/-- Schemes of `urllib.parse.uses_netloc`. -/
def usesNetloc : List Chars :=
  [[], ("ftp").data, ("http").data, ("gopher").data, ("nntp").data,
   ("telnet").data, ("imap").data, ("wais").data, ("file").data,
   ("mms").data, ("https").data, ("shttp").data, ("snews").data,
   ("prospero").data, ("rtsp").data, ("rtspu").data, ("rsync").data,
   ("svn").data, ("svn+ssh").data, ("sftp").data, ("nfs").data,
   ("git").data, ("git+ssh").data, ("ws").data, ("wss").data,
   ("itms-services").data]

/-- Schemes of `urllib.parse.uses_params`. -/
def usesParams : List Chars :=
  [[], ("ftp").data, ("hdl").data, ("prospero").data, ("http").data,
   ("imap").data, ("https").data, ("shttp").data, ("rtsp").data,
   ("rtspu").data, ("sip").data, ("sips").data, ("mms").data,
   ("sftp").data, ("tel").data]

/-- CPython (3.11) `urllib.parse.urlunsplit`. -/
def urlunsplit (r : SplitRes) : Chars :=
  let url := r.path
  let url :=
    if r.netloc ≠ [] ∨ (r.scheme ≠ [] ∧ r.scheme ∈ usesNetloc ∧ url.take 2 ≠ ['/', '/']) then
      let u2 := if url ≠ [] ∧ url.take 1 ≠ ['/'] then '/' :: url else url
      '/' :: '/' :: (r.netloc ++ u2)
    else url
  let url := if r.scheme ≠ [] then r.scheme ++ ':' :: url else url
  let url := if r.query ≠ [] then url ++ '?' :: r.query else url
  if r.frag ≠ [] then url ++ '#' :: r.frag else url


/-- CPython `urllib.parse._splitparams`: split `;params` off the last path
segment (only called when `;` occurs in the path). -/
def splitparams (url : Chars) : Chars × Chars :=
  match splitAtLastChar '/' url with
  | (beforeSlash, some afterSlash) =>
    (match splitAtFirstChar ';' afterSlash with
     | (b, some a) => (beforeSlash ++ '/' :: b, a)
     | (_, none) => (url, []))
  | (_, none) =>
    (match splitAtFirstChar ';' url with
     | (b, some a) => (b, a)
     | (_, none) => (url, []))

/-- Result of `urllib.parse.urlparse`. -/
structure ParseRes where
  scheme : Chars
  netloc : Chars
  path : Chars
  params : Chars
  query : Chars
  frag : Chars
deriving DecidableEq, Repr

/-- CPython `urllib.parse.urlparse(url, scheme=dflt)`: `urlsplit` plus the
params split for schemes in `uses_params`. -/
def urlparse (dflt : Chars) (url : Chars) : ParseRes :=
  let s := urlsplit dflt url
  if s.scheme ∈ usesParams ∧ s.path.contains ';' then
    let pp := splitparams s.path
    ⟨s.scheme, s.netloc, pp.1, pp.2, s.query, s.frag⟩
  else ⟨s.scheme, s.netloc, s.path, [], s.query, s.frag⟩

/-- CPython `urllib.parse.urlunparse`. -/
def urlunparse (r : ParseRes) : Chars :=
  let u := if r.params ≠ [] then r.path ++ ';' :: r.params else r.path
  urlunsplit ⟨r.scheme, r.netloc, u, r.query, r.frag⟩

/-- Dot-segment resolution loop of CPython `urljoin` (`resolved_path`). -/
def resolveSegs (acc : List Chars) : List Chars → List Chars
  | [] => acc
  | seg :: rest =>
    if seg = ['.', '.'] then resolveSegs acc.dropLast rest
    else if seg = ['.'] then resolveSegs acc rest
    else resolveSegs (acc ++ [seg]) rest

/-- CPython `urllib.parse.urljoin("/", url)` — the only base `norm_url`
joins against.  The base `"/"` parses to empty scheme/netloc/params/query
/fragment and path `"/"`, so `base_parts` is `['', '']`. -/
def urljoinRoot (url : Chars) : Chars :=
  if url = [] then ['/']
  else
    let r := urlparse [] url
    if r.scheme ≠ [] then url
    else if r.netloc ≠ [] then
      urlunparse ⟨[], r.netloc, r.path, r.params, r.query, r.frag⟩
    else if r.path = [] ∧ r.params = [] then
      urlunparse ⟨[], [], ['/'], [], r.query, r.frag⟩
    else
      let segments :=
        if r.path.take 1 = ['/'] then splitOnChar '/' r.path
        else
          let segs : List Chars := [[], []] ++ splitOnChar '/' r.path
          match segs with
          | first :: middleLast =>
            first :: (middleLast.dropLast.filter (fun s => s ≠ [])) ++
              [middleLast.getLastD []]
          | [] => []
      let resolved := resolveSegs [] segments
      let resolved :=
        if segments.getLastD [] = ['.'] ∨ segments.getLastD [] = ['.', '.'] then
          resolved ++ [[]]
        else resolved
      let p := joinChar '/' resolved
      urlunparse ⟨[], [], (if p = [] then ['/'] else p), r.params, r.query, r.frag⟩

/-- Stable insertion of `x` into a sorted list: `x` is placed after every
element `y` with `le y x`. -/
def insertLe (le : α → α → Bool) (x : α) : List α → List α
  | [] => [x]
  | y :: ys => if le y x then y :: insertLe le x ys else x :: y :: ys

/-- Stable sort by insertion.  Python's `sorted`/`list.sort` is a stable
sort; for a total, transitive `le` the stable sorted permutation is unique,
so this models `sorted(l, key=...)` exactly. -/
def stableSort (le : α → α → Bool) (l : List α) : List α :=
  l.foldl (fun acc x => insertLe le x acc) []

/-- Lexicographic comparison of Python strings (by code point), as used by
`sorted` on the query parameters in `norm_url`. -/
def pyStrLe : Chars → Chars → Bool
  | [], _ => true
  | _ :: _, [] => false
  | a :: as', b :: bs => if a = b then pyStrLe as' bs else decide (a < b)

/-- Strip an explicit default port from an already-lowercased netloc, as in
`norm_url`: drop a trailing `:80` for http and `:443` for https via
`netloc.rsplit(":", 1)[0]`. -/
def stripDefaultPort (scheme netloc : Chars) : Chars :=
  if (scheme = ("http").data ∧ List.isSuffixOf ((":80").data) netloc) ∨
     (scheme = ("https").data ∧ List.isSuffixOf ((":443").data) netloc) then
    match splitAtLastChar ':' netloc with
    | (b, some _) => b
    | (_, none) => netloc
  else netloc

/-- Embedding of `mini_search.norm_url` with `base=None` (the form the
claims quantify over): lowercase scheme and netloc, strip default ports,
resolve the path against `/`, sort the non-empty `&`-separated query
parts, drop the fragment.  The Python `except`-to-`""` wrapper is not
modelled (no modelled operation raises). -/
def norm_url (u : Chars) : Chars :=
  let pu := urlsplit [] u
  let netloc := stripDefaultPort pu.scheme (lowerChars pu.netloc)
  let path0 := if pu.path = [] then ['/'] else pu.path
  let path := urljoinRoot path0
  let query :=
    joinChar '&' (stableSort pyStrLe ((splitOnChar '&' pu.query).filter (fun p => p ≠ [])))
  urlunsplit ⟨lowerChars pu.scheme, netloc, path, query, []⟩

/-- Embedding of `crawler_jobs.CrawlerJobManager._is_valid_url` and the
scheme/netloc part of `crawler_ws.WebCrawler.is_valid_url`: http(s) scheme
and exact netloc equality with the base URL. -/
def is_valid_url (url base : Chars) : Bool :=
  let p := urlparse [] url
  let b := urlparse [] base
  (p.scheme = ("http").data ∨ p.scheme = ("https").data) ∧ p.netloc = b.netloc

/-!
Section 2: the batch crawler of `crawler_jobs.py` (`CrawlerJobManager`).

Network fetching and HTML parsing (`_crawl_page`'s `session.get` and
BeautifulSoup) are modelled by an oracle `Str → Option (title × links)`:
`none` models a failed fetch / non-200 / raised exception, `some (t, ls)`
models a successful parse whose first (up to) 20 anchors resolve (via
`urljoin`) to the absolute URLs `ls`.  The in-scope filter `_is_valid_url`
is applied by the model itself, as in `_crawl_page`.  The MongoDB job and
page stores are abstracted away: the job document is the `Job` value
threaded through, and `_save_page` has no effect on job state.  Wall-clock
time is modelled by a `timeO` oracle (one Boolean per loop iteration,
modelling `time.time() - start_time > timeout`) and by a `dur` parameter
for the accumulated `duration` stat.
-/

/-- Queue entry of a crawl job (`{'url': ..., 'depth': ..., 'parent': ...}`). -/
structure FrontierEntry where
  url : Chars
  depth : ℕ
  par : Option Chars
deriving DecidableEq, Repr

/-- Status of a node log entry. -/
inductive NStatus
  | crawling
  | completed
  | error
deriving DecidableEq, Repr

/-- Status of a crawl job. -/
inductive JStatus
  | pending
  | running
  | completed
deriving DecidableEq, Repr

/-- Node log entry of a crawl job. -/
structure NodeRec where
  url : Chars
  depth : ℕ
  status : NStatus
  par : Option Chars
  title : Option Chars
  linkCount : Option ℕ
deriving DecidableEq, Repr

/-- The `stats` sub-document of a crawl job. -/
structure JobStats where
  totalPages : ℕ
  completedPages : ℕ
  queueSize : ℕ
  duration : ℕ
deriving DecidableEq, Repr

/-- A crawl job document, as stored by `CrawlerJobManager`. -/
structure Job where
  startUrl : Chars
  maxDepth : ℕ
  maxPages : ℕ
  status : JStatus
  stats : JobStats
  queue : List FrontierEntry
  visited : List Chars
  nodes : List NodeRec
deriving DecidableEq, Repr

/-- Embedding of `CrawlerJobManager.create_job` (job id, timestamps and the
stores are abstracted away). -/
def create_job (startUrl : Chars) (maxDepth maxPages : ℕ) : Job :=
  { startUrl := startUrl
    maxDepth := maxDepth
    maxPages := maxPages
    status := JStatus.pending
    stats := ⟨0, 0, 1, 0⟩
    queue := [⟨startUrl, 0, none⟩]
    visited := []
    nodes := [] }

/-- A fetch oracle: `none` is a fetch/parse failure, `some (title, links)` a
success with the absolute URLs of the page's first (up to 20) anchors. -/
abbrev FetchOracle := Chars → Option (Chars × List Chars)

/-- Embedding of `CrawlerJobManager._crawl_page` on top of a fetch oracle:
takes the first 20 anchors and keeps those passing `_is_valid_url` against
the job's start URL. -/
def crawl_page (oracle : FetchOracle) (startUrl url : Chars) :
    Option (Chars × List Chars) :=
  match oracle url with
  | none => none
  | some (title, raw) => some (title, (raw.take 20).filter (fun l => is_valid_url l startUrl))

/-- Replace the last element of a list (`job['nodes'][-1].update(...)`). -/
def setLast (f : α → α) : List α → List α
  | [] => []
  | [x] => [f x]
  | x :: xs => x :: setLast f xs

/-- Inner enqueue loop of `process_job_batch`: `for link in links[:10]`,
append when the link is unvisited and the queue holds fewer than 100
entries.  (`visited` is not modified by this loop in the source, so it is a
fixed parameter here.) -/
def enqueueLinks (visited : List Chars) (curUrl : Chars) (depth : ℕ) :
    List FrontierEntry → List Chars → List FrontierEntry
  | queue, [] => queue
  | queue, l :: ls =>
    enqueueLinks visited curUrl depth
      (if ¬ visited.contains l ∧ queue.length < 100 then
        queue ++ [⟨l, depth + 1, some curUrl⟩]
      else queue) ls

/-- The `while` loop of `process_job_batch`, as a fuel-indexed recursion.
Each iteration consumes one unit of fuel; the caller passes
`queue.length + 10 * batchSize + 1` units, which strictly exceeds the
number of iterations the Python loop can perform (every iteration pops one
entry, and only the at most `batchSize` processed iterations push, at most
10 entries each), so the `fuel = 0` branch is unreachable and the function
computes exactly the Python loop. -/
def processLoop (oracle : FetchOracle) (timeO : ℕ → Bool)
    (startUrl : Chars) (maxDepth maxPages batchSize : ℕ) :
    ℕ → ℕ → ℕ → List FrontierEntry → List Chars → List NodeRec →
    List FrontierEntry × List Chars × List NodeRec
  | 0, _, _, queue, visited, nodes => (queue, visited, nodes)
  | fuel + 1, steps, processed, queue, visited, nodes =>
    match queue with
    | [] => ([], visited, nodes)
    | cur :: qrest =>
      if ¬ processed < batchSize then (queue, visited, nodes)
      else if timeO steps then (queue, visited, nodes)
      else if maxPages ≤ visited.length then (queue, visited, nodes)
      else if visited.contains cur.url then
        processLoop oracle timeO startUrl maxDepth maxPages batchSize
          fuel (steps + 1) processed qrest visited nodes
      else
        let visited' := visited ++ [cur.url]
        let nodes' := nodes ++ [⟨cur.url, cur.depth, NStatus.crawling, cur.par, none, none⟩]
        match crawl_page oracle startUrl cur.url with
        | some (title, links) =>
          let nodes2 := setLast
            (fun n => { n with status := NStatus.completed, title := some title,
                               linkCount := some links.length }) nodes'
          let queue' :=
            if cur.depth < maxDepth then
              enqueueLinks visited' cur.url cur.depth qrest (links.take 10)
            else qrest
          processLoop oracle timeO startUrl maxDepth maxPages batchSize
            fuel (steps + 1) (processed + 1) queue' visited' nodes2
        | none =>
          let nodes2 := setLast (fun n => { n with status := NStatus.error }) nodes'
          processLoop oracle timeO startUrl maxDepth maxPages batchSize
            fuel (steps + 1) (processed + 1) qrest visited' nodes2

/-- Embedding of `CrawlerJobManager.process_job_batch`: a completed job is
returned unchanged; otherwise the batch loop runs, the stats are recomputed,
and the status becomes `completed` exactly when the queue emptied or
`maxPages` URLs are visited, else `pending`.  `dur` is the wall-clock
duration measured for this batch. -/
def process_job_batch (oracle : FetchOracle) (timeO : ℕ → Bool)
    (batchSize : ℕ) (dur : ℕ) (j : Job) : Job :=
  if j.status = JStatus.completed then j
  else
    let fuel := j.queue.length + 10 * batchSize + 1
    let r := processLoop oracle timeO j.startUrl j.maxDepth j.maxPages batchSize
      fuel 0 0 j.queue j.visited j.nodes
    let q' := r.1
    let v' := r.2.1
    let n' := r.2.2
    let stats' : JobStats :=
      ⟨v'.length,
       (n'.filter (fun n => decide (n.status = NStatus.completed))).length,
       q'.length,
       j.stats.duration + dur⟩
    let status' :=
      if q' = [] ∨ j.maxPages ≤ v'.length then JStatus.completed else JStatus.pending
    { j with status := status', stats := stats', queue := q', visited := v', nodes := n' }

/-- Several consecutive `process_job_batch` calls on the same job, with
per-batch timeout oracles and durations. -/
def runBatches (oracle : FetchOracle) (timeOs : ℕ → ℕ → Bool) (batchSize : ℕ)
    (durs : ℕ → ℕ) : ℕ → Job → Job
  | 0, j => j
  | k + 1, j => runBatches oracle timeOs batchSize durs k
      (process_job_batch oracle (timeOs k) batchSize (durs k) j)

/-!
Section 3: the streaming crawler of `crawler_ws.py` (`WebCrawler.crawl`).

The same fetch-oracle abstraction is used; `WebCrawler.is_valid_url`
additionally rejects already-visited URLs, against the visited set at the
time `crawl_page` runs (which already contains the URL being crawled).
WebSocket progress messages carry no job state and are not modelled.
Python's `set` is modelled as a list to which elements are appended when
absent; the periodic trim `set(list(self.visited)[-50:])` keeps an
unspecified selection of 50 elements of a Python set, so it is modelled by
an arbitrary oracle `trimO` (the theorems hold for every `trimO`, and in
fact the trim is unreachable because `max_pages` is clamped to 50).
The loop may in principle run unboundedly (were the trim ever to fire), so
it is embedded as a fuel-indexed step function and the invariants are
proved for every fuel, i.e. at every point during processing.
-/

/-- State of a `WebCrawler` between iterations of the `crawl` loop. -/
structure WState where
  visited : List Chars
  queue : List (Chars × ℕ × Option Chars)
  pageCount : ℕ
deriving DecidableEq, Repr

/-- Initial `WebCrawler` state (`__init__`): queue seeded with the start
URL at depth 0; `max_pages` is clamped by `min(max_pages, 50)` which is kept
outside the state as the loop bound `maxPagesEff`. -/
def wsInit (startUrl : Chars) : WState := ⟨[], [(startUrl, 0, none)], 0⟩

/-- Embedding of `WebCrawler.crawl_page` on a fetch oracle: keep, among the
first 20 anchors, those with an http(s) scheme, the start URL's netloc, and
not already visited. -/
def ws_crawl_page (oracle : FetchOracle) (visited : List Chars)
    (startUrl url : Chars) : Option (Chars × List Chars) :=
  match oracle url with
  | none => none
  | some (title, raw) =>
    some (title, (raw.take 20).filter
      (fun l => is_valid_url l startUrl && !(visited.contains l)))

/-- Enqueue loop of `WebCrawler.crawl`: every returned link that is
unvisited while the queue holds fewer than 100 entries is appended. -/
def wsEnqueue (visited : List Chars) (curUrl : Chars) (depth : ℕ) :
    List (Chars × ℕ × Option Chars) → List Chars → List (Chars × ℕ × Option Chars)
  | queue, [] => queue
  | queue, l :: ls =>
    wsEnqueue visited curUrl depth
      (if ¬ visited.contains l ∧ queue.length < 100 then
        queue ++ [(l, depth + 1, some curUrl)]
      else queue) ls

/-- The `while` loop of `WebCrawler.crawl` as a fuel-indexed step function;
`maxPagesEff` is `min(max_pages, 50)` from `__init__`. -/
def wsRun (oracle : FetchOracle) (trimO : List Chars → List Chars)
    (startUrl : Chars) (maxDepth maxPagesEff : ℕ) : ℕ → WState → WState
  | 0, s => s
  | fuel + 1, s =>
    match s.queue with
    | [] => s
    | (url, depth, _par) :: qrest =>
      if ¬ s.visited.length < maxPagesEff then s
      else if s.visited.contains url ∨ maxDepth < depth then
        wsRun oracle trimO startUrl maxDepth maxPagesEff fuel { s with queue := qrest }
      else
        let visited' := s.visited ++ [url]
        match ws_crawl_page oracle visited' startUrl url with
        | some (_title, links) =>
          let queue' := wsEnqueue visited' url depth qrest links
          let pc := s.pageCount + 1
          let visited2 :=
            if pc % 10 = 0 ∧ 100 < visited'.length then trimO visited' else visited'
          wsRun oracle trimO startUrl maxDepth maxPagesEff fuel ⟨visited2, queue', pc⟩
        | none =>
          wsRun oracle trimO startUrl maxDepth maxPagesEff fuel
            { s with visited := visited', queue := qrest }

/-!
Section 4: the two PageRank implementations.

`mini_search.pagerank` (file-backed path): power iteration with sink-mass
redistribution and a convergence tolerance.  The Python `outlinks` dict is
modelled as a function `g : ℕ → List ℕ`; iteration over `outlinks.items()`
is modelled as iteration over `range N` (a key `j` with `g j = []` behaves
exactly like an absent key, and addition of the distributed contributions is
commutative, so dict iteration order is immaterial; keys outside
`range N` with non-empty link lists would make the Python code raise
`KeyError`, which is excluded by hypothesis in the theorems).  Ranks are the
list of values `pr[0], ..., pr[N-1]` of the Python dict.

`mongo_search.MongoSearchEngine._calculate_pagerank` (store-backed path):
fixed iteration count, no sink handling, adjacency built from stored
document link lists with unresolved links dropped and self-links excluded.
-/

/-- Python `pr[i]` for the rank dict, modelled as list indexing (the dicts
always have exactly the keys `range N`). -/
def rankAt (pr : List ℚ) (i : ℕ) : ℚ := pr.getD i 0

/-- Add `w` to entry `i` of the rank list (`new[i] += w`). -/
def addAt (pr : List ℚ) (i : ℕ) (w : ℚ) : List ℚ := pr.set i (rankAt pr i + w)

/-- Total rank mass held by sink documents (out-degree 0):
`sum(pr[i] for i in range(N) if outdeg.get(i, 0) == 0)`. -/
def sinkSum (g : ℕ → List ℕ) (N : ℕ) (pr : List ℚ) : ℚ :=
  (((List.range N).filter (fun i => (g i).isEmpty)).map (rankAt pr)).sum

/-- Distribution of one non-sink document's rank: each target in `outs`
receives `w = gamma * pr[j] / len(outs)` (repeated targets receive it once
per occurrence, as in the Python `for i in outs` loop). -/
def distribOne (w : ℚ) (outs : List ℕ) (new : List ℚ) : List ℚ :=
  outs.foldl (fun acc i => addAt acc i w) new

/-- One power-iteration round of `mini_search.pagerank`. -/
def prRound (g : ℕ → List ℕ) (N : ℕ) (gamma : ℚ) (pr : List ℚ) : List ℚ :=
  let base := (1 - gamma) / (N : ℚ)
  let sinkAdd := gamma * sinkSum g N pr / (N : ℚ)
  (List.range N).foldl
    (fun acc j =>
      if (g j).isEmpty then acc
      else distribOne (gamma * rankAt pr j / ((g j).length : ℚ)) (g j) acc)
    (List.replicate N (base + sinkAdd))

/-- Summed absolute rank change of a round
(`sum(abs(new[i] - pr[i]) for i in range(N))`). -/
def prDelta (N : ℕ) (a b : List ℚ) : ℚ :=
  (((List.range N)).map (fun i => |rankAt a i - rankAt b i|)).sum

/-- Iteration loop of `mini_search.pagerank`: up to `maxIter` rounds,
stopping (after updating) once the summed change drops below `tol`. -/
def prIter (g : ℕ → List ℕ) (N : ℕ) (gamma tol : ℚ) : ℕ → List ℚ → List ℚ
  | 0, pr => pr
  | k + 1, pr =>
    let new := prRound g N gamma pr
    if prDelta N new pr < tol then new else prIter g N gamma tol k new

/-- Embedding of `mini_search.pagerank(outlinks, n, gamma, tol, max_iter)`. -/
def pagerank (g : ℕ → List ℕ) (n : ℕ) (gamma tol : ℚ) (maxIter : ℕ) : List ℚ :=
  if n = 0 then []
  else prIter g n gamma tol maxIter (List.replicate n (1 / (n : ℚ)))

/-- A document as stored in the `crawled_pages` collection (the fields the
search engine reads). -/
structure MDoc where
  url : Chars
  title : Chars
  text : Chars
  snippet : Chars
  links : List Chars
deriving DecidableEq, Repr

/-- The `url_to_idx` dict built by `_build_index`: `url_to_idx[url] = i` per
document in order, so on duplicate URLs the last index wins. -/
def url_to_idx (docs : List MDoc) (u : Chars) : Option ℕ :=
  ((docs.enum.filter (fun p => p.2.url == u)).getLast?).map Prod.fst

/-- Adjacency list of `_calculate_pagerank`: links resolving to a known
document index, self-links excluded, duplicates preserved. -/
def mongoOutlinks (docs : List MDoc) (i : ℕ) : List ℕ :=
  match docs.get? i with
  | none => []
  | some d => (d.links.filterMap (url_to_idx docs)).filter (fun t => !(t == i))

/-- Inbound rank sum of `_calculate_pagerank`:
`sum(pr[j] / len(outlinks[j]) for j in range(N) if i in outlinks[j] and len(outlinks[j]) > 0)`.
Note the membership test: a document linking to `i` several times still
contributes only once. -/
def mongoRankSum (docs : List MDoc) (N : ℕ) (pr : List ℚ) (i : ℕ) : ℚ :=
  (((List.range N).filter
      (fun j => (mongoOutlinks docs j).contains i && !(mongoOutlinks docs j).isEmpty)).map
    (fun j => rankAt pr j / ((mongoOutlinks docs j).length : ℚ))).sum

/-- One iteration of `_calculate_pagerank`. -/
def mongoRound (docs : List MDoc) (damping : ℚ) (N : ℕ) (pr : List ℚ) : List ℚ :=
  (List.range N).map (fun i => (1 - damping) / (N : ℚ) + damping * mongoRankSum docs N pr i)

/-- Fixed-count iteration loop of `_calculate_pagerank`. -/
def mongoIter (docs : List MDoc) (damping : ℚ) (N : ℕ) : ℕ → List ℚ → List ℚ
  | 0, pr => pr
  | k + 1, pr => mongoIter docs damping N k (mongoRound docs damping N pr)

/-- Embedding of `MongoSearchEngine._calculate_pagerank(docs, url_to_idx,
iterations, damping)` (defaults: 20 iterations, damping 0.85). -/
def calculate_pagerank (docs : List MDoc) (iterations : ℕ) (damping : ℚ) : List ℚ :=
  let N := docs.length
  if N = 0 then []
  else mongoIter docs damping N iterations (List.replicate N (1 / (N : ℚ)))

/-!
Section 5: tokenization, the in-memory search index, the two BM25/hybrid
search paths, the suggestion engine, and the store-backed index builder.

`math.log` values (IDF) are not rational, so the index's `idf` table is
carried as data (arbitrary rationals, as the code carries arbitrary floats)
and the builder takes the logarithm as a function parameter `logF`; the
exact real-valued IDF formulas are stated separately in Section 6.
-/

/-- Tokenizer run accumulator: `cur` is the current in-progress maximal
alphanumeric run, reversed. -/
def tokenizeGo : Chars → Chars → List Chars
  | [], cur => if cur = [] then [] else [lowerChars cur.reverse]
  | c :: rest, cur =>
    if c.isAlphanum then tokenizeGo rest (c :: cur)
    else if cur = [] then tokenizeGo rest []
    else lowerChars cur.reverse :: tokenizeGo rest []

/-- Embedding of `tokenize` (`mini_search.py` and `mongo_search.py`,
identical): lowercased maximal runs of ASCII letters and digits
(`re.findall(r"[A-Za-z0-9]+")`, `Char.isAlphanum` is exactly ASCII
alphanumeric). -/
def tokenize (s : Chars) : List Chars := tokenizeGo s []

/-- A `Document` record (`mini_search.Document` / `mongo_search.Document`). -/
structure Document where
  url : Chars
  title : Chars
  length : ℕ
  snippet : Chars
deriving DecidableEq, Repr

/-- Placeholder document for (unreachable) out-of-range index accesses
`idx['docs'][doc_idx]`. -/
def dfltDoc : Document := ⟨[], [], 0, []⟩

/-- The in-memory index built by `MongoSearchEngine._build_index`
(dicts keyed by `range N` are lists; term-keyed dicts are insertion-ordered
association lists, as in Python). -/
structure SIndex where
  docs : List Document
  doclen : List ℕ
  avgdl : ℚ
  idf : List (Chars × ℚ)
  inv : List (Chars × List (ℕ × ℕ))
  pr : List ℚ
deriving DecidableEq, Repr

/-- Term frequency of document `i` in a postings list: the Python loop
`for posting_doc_idx, posting_tf in ...: if posting_doc_idx == doc_idx:
tf = posting_tf; break`, with `tf = 0` when absent. -/
def postTf (plist : List (ℕ × ℕ)) (i : ℕ) : ℕ :=
  match plist.find? (fun p => p.1 == i) with
  | some p => p.2
  | none => 0

/-- One BM25 term contribution in `MongoSearchEngine.search`
(`k1 = 1.5`, `b = 0.75`):
`idf * tf*(k1+1) / (tf + k1*(1 - b + b*(doc_len/avgdl)))`. -/
def bm25TermMongo (idfSc : ℚ) (tf : ℕ) (dl : ℕ) (avgdl : ℚ) : ℚ :=
  let k1 : ℚ := 3 / 2
  let b : ℚ := 3 / 4
  idfSc * (((tf : ℚ) * (k1 + 1)) / ((tf : ℚ) + k1 * (1 - b + b * ((dl : ℚ) / avgdl))))

/-- BM25 score of document `i` in `MongoSearchEngine.search`: sum over the
query terms, skipping terms missing from the inverted index and terms with
zero frequency in `i`. -/
def mongoBM25 (idx : SIndex) (qterms : List Chars) (i : ℕ) : ℚ :=
  qterms.foldl
    (fun sc t =>
      match idx.inv.lookup t with
      | none => sc
      | some plist =>
        let tf := postTf plist i
        if tf = 0 then sc
        else sc + bm25TermMongo ((idx.idf.lookup t).getD 0) tf (idx.doclen.getD i 0) idx.avgdl)
    0

/-- The `bm25_scores` dict of `MongoSearchEngine.search`: documents in index
order whose BM25 score is strictly positive (`if score > 0`). -/
def mongoScores (idx : SIndex) (qterms : List Chars) : List (ℕ × ℚ) :=
  ((List.range idx.docs.length).map (fun i => (i, mongoBM25 idx qterms i))).filter
    (fun p => decide (0 < p.2))

/-- Python `min(vals)` with the `if pr_values else 0.0` guard. -/
def prMinOf : List ℚ → ℚ
  | [] => 0
  | x :: xs => xs.foldl min x

/-- Python `max(vals)` with the `if pr_values else 1.0` guard. -/
def prMaxOf : List ℚ → ℚ
  | [] => 1
  | x :: xs => xs.foldl max x

/-- Min-max PageRank normalisation of `MongoSearchEngine.search`
(`pr_norm`): 0 whenever the range is below `1e-12`. -/
def mongoPrNorm (idx : SIndex) (i : ℕ) : ℚ :=
  let mn := prMinOf idx.pr
  let mx := prMaxOf idx.pr
  if mx - mn < 1 / 1000000000000 then 0
  else (idx.pr.getD i 0 - mn) / (mx - mn)

/-- Per-query-term award of `title_match_score` (identical in
`MongoSearchEngine.search` and `mini_search.hybrid_rank`): 1 for an exact
title-token match, else 0.8 for a substring of some title token, else 0.6
for a substring of the lowercased URL, else 0. -/
def titleMatchOne (titleTokens : List Chars) (urlLower : Chars) (qt : Chars) : ℚ :=
  if titleTokens.contains qt then 1
  else if titleTokens.any (fun tok => containsSub qt tok) then 4 / 5
  else if containsSub qt urlLower then 3 / 5
  else 0

/-- Embedding of `title_match_score` (the `matches` accumulation loop and
the `if matches == 0: return 0.0` early return). -/
def title_match_score (d : Document) (qterms : List Chars) (titleBoost : ℚ) : ℚ :=
  let titleTokens := tokenize (lowerChars d.title)
  let urlLower := lowerChars d.url
  let mtc := qterms.foldl (fun m qt => m + titleMatchOne titleTokens urlLower qt) 0
  if mtc = 0 then 0 else titleBoost * (mtc / (qterms.length : ℚ))

/-- The `final_scores` dict of `MongoSearchEngine.search`:
`bm25 * (alpha + beta * pr_norm + title_match_score)` per scored document. -/
def mongoFinalScores (idx : SIndex) (qterms : List Chars) (alpha beta tb : ℚ) :
    List (ℕ × ℚ) :=
  (mongoScores idx qterms).map
    (fun p => (p.1, p.2 * (alpha + beta * mongoPrNorm idx p.1 +
      title_match_score (idx.docs.getD p.1 dfltDoc) qterms tb)))

/-- Python `sorted(items, key=lambda x: x[1], reverse=True)`: a stable sort
descending by score. -/
def sortByScoreDesc (l : List (ℕ × ℚ)) : List (ℕ × ℚ) :=
  stableSort (fun a b => decide (b.2 ≤ a.2)) l

/-- Embedding of `MongoSearchEngine.search` given a built index. -/
def searchIdx (idx : SIndex) (query : Chars) (alpha beta : ℚ) (k : ℕ) (tb : ℚ) :
    List (Document × ℚ) :=
  let qterms := tokenize query
  if qterms = [] then []
  else if mongoScores idx qterms = [] then []
  else
    ((sortByScoreDesc (mongoFinalScores idx qterms alpha beta tb)).take k).map
      (fun p => (idx.docs.getD p.1 dfltDoc, p.2))

/-- Embedding of `MongoSearchEngine.search` (`idx = self._build_index();
if not idx: return []`). -/
def search (idxO : Option SIndex) (query : Chars) (alpha beta : ℚ) (k : ℕ) (tb : ℚ) :
    List (Document × ℚ) :=
  match idxO with
  | none => []
  | some idx => searchIdx idx query alpha beta k tb

/-!
The file-backed path: `mini_search.bm25_scores` and `mini_search.hybrid_rank`.
The index loaded from disk is a `MiniIndex`; the postings stream
(`load_postings`) is a list of `(term, {doc: tf})` rows.
-/

/-- The file-backed index (`index.json`): `idf`, `avgdl`, `doclen`, `docs`. -/
structure MiniIndex where
  idf : List (Chars × ℚ)
  avgdl : ℚ
  doclen : List ℕ
  docs : List Document
deriving DecidableEq, Repr

/-- Add `w` into the `scores` defaultdict at key `d` (`scores[d] += w`):
insertion-ordered upsert. -/
def upsertAdd (d : ℕ) (w : ℚ) : List (ℕ × ℚ) → List (ℕ × ℚ)
  | [] => [(d, w)]
  | (k, v) :: rest => if k = d then (k, v + w) :: rest else (k, v) :: upsertAdd d w rest

/-- One BM25 term contribution in `mini_search.bm25_scores`
(`k1 = 1.2`, `b = 0.75`, with the `avgdl or 1.0` and `denom or 1e-9`
guards): `idf * tf*(k1+1) / (tf + k1*(1.0 + b*(doclen/avgdl - 1.0)))`. -/
def bm25TermMini (idfSc : ℚ) (tf : ℕ) (dl : ℕ) (avgdl : ℚ) : ℚ :=
  let k1 : ℚ := 6 / 5
  let b : ℚ := 3 / 4
  let avgdlEff := if avgdl = 0 then 1 else avgdl
  let denom := (tf : ℚ) + k1 * (1 + b * ((dl : ℚ) / avgdlEff - 1))
  idfSc * ((tf : ℚ) * (k1 + 1)) / (if denom = 0 then 1 / 1000000000 else denom)

/-- Inner loop of `bm25_scores`: add the contributions of one postings
row. -/
def miniAddRow (idfSc : ℚ) (doclen : List ℕ) (avgdl : ℚ)
    (scores : List (ℕ × ℚ)) : List (ℕ × ℕ) → List (ℕ × ℚ)
  | [] => scores
  | (d, tf) :: rest =>
    miniAddRow idfSc doclen avgdl
      (upsertAdd d (bm25TermMini idfSc tf (doclen.getD d 0) avgdl) scores) rest

/-- Embedding of `mini_search.bm25_scores`: keep the query terms present in
the IDF table; if none survive return the empty dict; otherwise accumulate
over the postings rows whose term is among the surviving terms. -/
def bm25_scores (qterms : List Chars) (idf : List (Chars × ℚ))
    (postings : List (Chars × List (ℕ × ℕ))) (doclen : List ℕ) (avgdl : ℚ) :
    List (ℕ × ℚ) :=
  let terms := qterms.filter (fun t => (idf.lookup t).isSome)
  if terms = [] then []
  else
    postings.foldl
      (fun scores row =>
        if terms.contains row.1 then
          miniAddRow ((idf.lookup row.1).getD 0) doclen avgdl scores row.2
        else scores)
      []

/-- Min-max PageRank normalisation of `hybrid_rank` (`pr_norm`), over the
loaded pagerank vector. -/
def miniPrNorm (pr : List ℚ) (i : ℕ) : ℚ :=
  let mnmx := if pr = [] then ((0 : ℚ), (1 : ℚ)) else (prMinOf pr, prMaxOf pr)
  if mnmx.2 - mnmx.1 < 1 / 1000000000000 then 0
  else (pr.getD i 0 - mnmx.1) / (mnmx.2 - mnmx.1)

/-- Embedding of `mini_search.hybrid_rank` given the loaded index, postings
stream and pagerank vector. -/
def hybrid_rank (idx : MiniIndex) (postings : List (Chars × List (ℕ × ℕ)))
    (pr : List ℚ) (query : Chars) (alpha beta : ℚ) (k : ℕ) (titleBoost : ℚ) :
    List (Document × ℚ) :=
  let qterms := tokenize query
  let bm := bm25_scores qterms idx.idf postings idx.doclen idx.avgdl
  if bm = [] then []
  else
    let scores := bm.map
      (fun p => (p.1, p.2 * (alpha + beta * miniPrNorm pr p.1 +
        title_match_score (idx.docs.getD p.1 dfltDoc) qterms titleBoost)))
    ((sortByScoreDesc scores).take k).map (fun p => (idx.docs.getD p.1 dfltDoc, p.2))

/-!
The suggestion engine (`MongoSearchEngine.get_suggestions` and
`_fuzzy_match`) and the store-backed index builder (`_build_index`).
-/

/-- Embedding of `MongoSearchEngine._fuzzy_match`: do all pattern
characters appear in the text, in order? -/
def fuzzy_match : Chars → Chars → Bool
  | [], _ => true
  | _ :: _, [] => false
  | p :: ps, c :: cs => if c = p then fuzzy_match ps cs else fuzzy_match (p :: ps) cs

/-- The tier assigned to a vocabulary term by the `elif` chain of
`get_suggestions` (`none` when no tier matches):
tier 0 raw-prefix, tier 1 squeezed-prefix (length ≥ 3), tier 2 substring
(raw length ≥ 3), tier 3 in-order subsequence (squeezed length ≥ 3). -/
def tierOf (preLower preSq term : Chars) : Option ℕ :=
  if preLower.isPrefixOf term then some 0
  else if 3 ≤ preSq.length ∧ preSq.isPrefixOf term then some 1
  else if containsSub preLower term ∧ 3 ≤ preLower.length then some 2
  else if 3 ≤ preSq.length ∧ fuzzy_match preSq term then some 3
  else none

/-- The `matching_terms` list of `get_suggestions`: vocabulary terms (IDF
keys, in insertion order) with their tiers. -/
def matchingTerms (idf : List (Chars × ℚ)) (preLower preSq : Chars) :
    List (Chars × ℕ) :=
  (idf.map Prod.fst).filterMap (fun t => (tierOf preLower preSq t).map (fun p => (t, p)))

/-- Sort key comparison for `matching_terms.sort(key=lambda x: (x[1],
idf.get(x[0], float('inf'))))`: Python tuple order is lexicographic, and
the missing-key default `inf` is `⊤`. -/
def sugLe (idf : List (Chars × ℚ)) (a b : Chars × ℕ) : Bool :=
  let ia : WithTop ℚ := match idf.lookup a.1 with | some v => (v : WithTop ℚ) | none => ⊤
  let ib : WithTop ℚ := match idf.lookup b.1 with | some v => (v : WithTop ℚ) | none => ⊤
  decide (a.2 < b.2 ∨ (a.2 = b.2 ∧ ia ≤ ib))

/-- The title scan of `get_suggestions`: matching lowercased titles, kept
unique, stopping once `limit // 2` are collected (the bound is tested after
appending, so for `limit ≤ 1` a single title can still be collected; the
final `[:limit]` slice re-caps the merged list). -/
def titleScan (preLower preSq : Chars) (limit : ℕ) :
    List Document → List Chars → List Chars
  | [], acc => acc
  | d :: rest, acc =>
    let tl := lowerChars d.title
    let tn := tl.filter Char.isAlphanum
    if containsSub preLower tl ∨ (3 ≤ preSq.length ∧ containsSub preSq tn) then
      if acc.contains tl then titleScan preLower preSq limit rest acc
      else
        let acc2 := acc ++ [tl]
        if limit / 2 ≤ acc2.length then acc2 else titleScan preLower preSq limit rest acc2
    else titleScan preLower preSq limit rest acc

/-- First merge loop of `get_suggestions`: append each unseen title. -/
def addTitles : List Chars → List Chars → List Chars
  | acc, [] => acc
  | acc, t :: ts => addTitles (if acc.contains t then acc else acc ++ [t]) ts

/-- Second merge loop of `get_suggestions`: append each unseen term while
fewer than `limit` suggestions are collected. -/
def addTerms (limit : ℕ) : List Chars → List Chars → List Chars
  | acc, [] => acc
  | acc, t :: ts =>
    addTerms limit
      (if ¬ acc.contains t ∧ acc.length < limit then acc ++ [t] else acc) ts

/-- Embedding of `MongoSearchEngine.get_suggestions` given a built index. -/
def getSuggestionsIdx (idx : SIndex) (pre : Chars) (limit : ℕ) : List Chars :=
  let preLower := lowerChars pre
  let preSq := preLower.filter Char.isAlphanum
  let termSug :=
    ((stableSort (sugLe idx.idf) (matchingTerms idx.idf preLower preSq)).take
      (limit * 2)).map Prod.fst
  let titleSug := titleScan preLower preSq limit idx.docs []
  (addTerms limit (addTitles [] titleSug) termSug).take limit

/-- Embedding of `MongoSearchEngine.get_suggestions` (empty when the index
is empty). -/
def get_suggestions (idxO : Option SIndex) (pre : Chars) (limit : ℕ) : List Chars :=
  match idxO with
  | none => []
  | some idx => getSuggestionsIdx idx pre limit

/-- Insertion-ordered token counter (`collections.Counter` preserves
first-occurrence order): increment in place or append. -/
def counterInc : List (Chars × ℕ) → Chars → List (Chars × ℕ)
  | [], t => [(t, 1)]
  | (k, v) :: rest, t =>
    if k = t then (k, v + 1) :: rest else (k, v) :: counterInc rest t

/-- Token counts of one document, in first-occurrence order. -/
def counter (toks : List Chars) : List (Chars × ℕ) :=
  toks.foldl counterInc []

/-- Append a posting to the inverted index, creating the term entry at the
end on first occurrence (Python dict insertion order). -/
def invAdd : List (Chars × List (ℕ × ℕ)) → Chars → ℕ × ℕ → List (Chars × List (ℕ × ℕ))
  | [], t, p => [(t, [p])]
  | (k, v) :: rest, t, p =>
    if k = t then (k, v ++ [p]) :: rest else (k, v) :: invAdd rest t p

/-- Per-document record construction of `_build_index` (snippet truncation,
text-else-snippet fallback, snippet generation from text). -/
def buildDocRecord (d : MDoc) : Document × List Chars :=
  let snippet0 := d.snippet.take 200
  let content := if d.text ≠ [] then d.text else snippet0
  let tokens := tokenize (d.title ++ ' ' :: content)
  let snippet := if snippet0 = [] ∧ d.text ≠ [] then d.text.take 200 else snippet0
  (⟨d.url, d.title, tokens.length, snippet⟩, tokens)

/-- Embedding of `MongoSearchEngine._build_index` on a fetched document
list (`None` — here `none` — for an empty document set; the
count-based cache of the live object is state of the surrounding class, not
of the build computation, and is not modelled).  `logF` abstracts
`math.log`. -/
def build_index (logF : ℚ → ℚ) (docs : List MDoc) : Option SIndex :=
  if docs = [] then none
  else
    let recs := docs.map buildDocRecord
    let docList := recs.map Prod.fst
    let docTokens := recs.map Prod.snd
    let docLengths := docTokens.map List.length
    let avgdl : ℚ :=
      if docLengths = [] then 0
      else ((docLengths.map (fun n => (n : ℚ))).sum) / (docLengths.length : ℚ)
    let inv := (docTokens.enum).foldl
      (fun acc p => (counter p.2).foldl (fun a tc => invAdd a tc.1 (p.1, tc.2)) acc) []
    let n := docList.length
    let idf := inv.map
      (fun p => (p.1, logF (((n : ℚ) - (p.2.length : ℚ) + 1 / 2) / ((p.2.length : ℚ) + 1 / 2) + 1)))
    some
      { docs := docList
        doclen := docLengths
        avgdl := avgdl
        idf := idf
        inv := inv
        pr := calculate_pagerank docs 20 (85 / 100) }

/-!
Section 6: the exact IDF formulas of the two index-building paths.

`mini_search.build` (file-backed):
`idf[t] = math.log(1 + (N - df + 0.5) / (df + 0.5))`;
`MongoSearchEngine._build_index` (store-backed):
`idf[term] = math.log((N - df + 0.5) / (df + 0.5) + 1.0)`.
`math.log` on exact inputs is `Real.log`, so these two definitions are the
faithful real-valued semantics of the two lines (`N` the document count,
`df` the term's document frequency, both natural numbers in the source).
-/

/-- IDF formula of the file-backed builder (`mini_search.build`, line
`idf = {t: math.log(1 + (N - df_t + 0.5) / (df_t + 0.5)) ...}`). -/
noncomputable def idfFile (n df : ℕ) : ℝ :=
  Real.log (1 + ((n : ℝ) - (df : ℝ) + 1 / 2) / ((df : ℝ) + 1 / 2))

/-- IDF formula of the store-backed builder
(`MongoSearchEngine._build_index`, line
`idf[term] = math.log((N - df + 0.5) / (df + 0.5) + 1.0)`). -/
noncomputable def idfStore (n df : ℕ) : ℝ :=
  Real.log (((n : ℝ) - (df : ℝ) + 1 / 2) / ((df : ℝ) + 1 / 2) + 1)

/-- A well-formed http(s) URL assembled from components: scheme, `://`,
host, absolute path, optional `?query`.  Used to state the amended
idempotence claim C7: `norm_url` outputs of this shape (with suitable
component conditions) are fixed points of `norm_url`. -/
def mkUrl (s h p q : Chars) : Chars :=
  s ++ ':' :: '/' :: '/' :: (h ++ p ++ (if q = [] then [] else '?' :: q))

/-!
Concrete fixtures used by counterexamples and witnesses.
-/

/-- Start URL of the concrete batch-crawl run. -/
def exStart : Chars := ("http://a.com/").data

/-- A page link spelled with query order `a&b`. -/
def exL1 : Chars := ("http://a.com/x?a&b").data

/-- The same page link spelled with query order `b&a` (equal after
normalization). -/
def exL2 : Chars := ("http://a.com/x?b&a").data

/-- Fetch oracle of the concrete run: the start page links to the two
spellings of the same normalized URL; every other page has no links. -/
def exOracle : FetchOracle := fun u =>
  if u = exStart then some (("Home").data, [exL1, exL2])
  else some (("Page").data, [])

/-- The concrete batch-crawl run: one batch of size 5, no timeout, on a
fresh job with `maxDepth = 2`, `maxPages = 10`. -/
def exJob : Job :=
  process_job_batch exOracle (fun _ => false) 5 1 (create_job exStart 2 10)

/-- One-document index fixture for the ranking-formula witness. -/
def c3idx : SIndex :=
  { docs := [⟨("http://a/").data, ("Go").data, 1, []⟩]
    doclen := [1]
    avgdl := 1
    idf := [(("go").data, 1)]
    inv := [(("go").data, [(0, 1)])]
    pr := [1] }

/-- Small index fixture for the suggestion witness: vocabulary
`{forloop, for, format}` (the spec's own example) with integer IDF
values, and one document titled `ForLoop tricks`. -/
def c5idx : SIndex :=
  { docs := [⟨("http://a/c").data, ("ForLoop tricks").data, 2, []⟩]
    doclen := [2]
    avgdl := 2
    idf := [(("forloop").data, 3), (("for").data, 1), (("format").data, 2)]
    inv := [(("forloop").data, [(0, 1)]), (("for").data, [(0, 1)]),
            (("format").data, [(0, 1)])]
    pr := [1] }

/-- The specification's condition for a term to match at tier `s`
(comparison predicate for claim C5): tier 0 raw-prefix match, tier 1
squeezed-prefix (length at least 3), tier 2 substring (raw length at least
3), tier 3 in-order subsequence (squeezed length at least 3). -/
def tierApplies (preL preSq : Chars) (s : ℕ) (t : Chars) : Prop :=
  match s with
  | 0 => preL.isPrefixOf t = true
  | 1 => 3 ≤ preSq.length ∧ preSq.isPrefixOf t = true
  | 2 => containsSub preL t = true ∧ 3 ≤ preL.length
  | 3 => 3 ≤ preSq.length ∧ fuzzy_match preSq t = true
  | _ => False

/-- Title/URL boost as worded by the specification (the comparison
definition for claim C3): for each query term award 1.0 for an exact title
token match, else 0.8 for a substring match in some title token, else 0.6
for a substring match in the lowercased URL; sum the awards, divide by the
number of query terms, multiply by `titleBoost`. -/
def titleBoost_spec (d : Document) (qterms : List Chars) (tb : ℚ) : ℚ :=
  tb * (((qterms.map
    (titleMatchOne (tokenize (lowerChars d.title)) (lowerChars d.url))).sum) /
      (qterms.length : ℚ))

/-!
Theorems.  Each claim `Cn` of the specification review is settled by one
theorem (plus, where needed, a counterexample and a witness).  Shared helper
lemmas come first within each group.
-/

/-- C8, counterexample to the claim as stated: there are no `N`, `df` at
which the two index-building paths produce different IDF values — the two
source lines `log(1 + (N - df + 0.5)/(df + 0.5))` and
`log((N - df + 0.5)/(df + 0.5) + 1.0)` compute the same function. -/
theorem c8_counterexample : ¬ ∃ n df : ℕ, idfFile n df ≠ idfStore n df := by
  intro h
  obtain ⟨n, df, hne⟩ := h
  exact hne (by unfold idfFile idfStore; rw [add_comm])

/-- C8, amended: the file-backed and store-backed index builders use the
same IDF formula `ln((N − df + 0.5)/(df + 0.5) + 1)` — written with the
`+1` in different positions — so for every document count and document
frequency the two paths produce equal IDF values. -/
theorem c8_theorem : ∀ n df : ℕ, idfFile n df = idfStore n df := by
  intro n df
  unfold idfFile idfStore
  rw [add_comm]

/-- C9: calling `process_job_batch` on a completed job is a no-op returning
the stored job unchanged; on a non-completed job, the returned status is
`completed` exactly when the returned queue is empty or the number of
visited URLs has reached `maxPages`, and `pending` otherwise. -/
theorem c9_theorem :
    (∀ (oracle : FetchOracle) (timeO : ℕ → Bool) (bs dur : ℕ) (j : Job),
      j.status = JStatus.completed → process_job_batch oracle timeO bs dur j = j) ∧
    (∀ (oracle : FetchOracle) (timeO : ℕ → Bool) (bs dur : ℕ) (j : Job),
      j.status ≠ JStatus.completed →
      (process_job_batch oracle timeO bs dur j).status =
        (if (process_job_batch oracle timeO bs dur j).queue = [] ∨
            j.maxPages ≤ (process_job_batch oracle timeO bs dur j).visited.length
         then JStatus.completed else JStatus.pending)) := by
  constructor
  · intro oracle timeO bs dur j h
    unfold process_job_batch
    rw [if_pos h]
  · intro oracle timeO bs dur j h
    unfold process_job_batch
    rw [if_neg h]

/-- C9, witness: a concrete completed one-page job is returned unchanged,
and on a concrete pending job the returned status satisfies the
queue-empty-or-max-pages characterisation. -/
theorem c9_witness :
    (process_job_batch (fun _ => none) (fun _ => false) 1 0
        { create_job (("http://a.com/").data) 2 5 with status := JStatus.completed } =
      { create_job (("http://a.com/").data) 2 5 with status := JStatus.completed }) ∧
    ((process_job_batch (fun _ => none) (fun _ => false) 1 0
        (create_job (("http://a.com/").data) 2 5)).status =
      (if (process_job_batch (fun _ => none) (fun _ => false) 1 0
            (create_job (("http://a.com/").data) 2 5)).queue = [] ∨
          (create_job (("http://a.com/").data) 2 5).maxPages ≤
            (process_job_batch (fun _ => none) (fun _ => false) 1 0
              (create_job (("http://a.com/").data) 2 5)).visited.length
       then JStatus.completed else JStatus.pending)) :=
  ⟨c9_theorem.1 _ _ _ _ _ rfl, c9_theorem.2 _ _ _ _ _ (by decide)⟩

/-- Helper: reading back a rank list by indices `0..length-1` is the list
itself. -/
theorem rankAt_range (l : List ℚ) : (List.range l.length).map (rankAt l) = l := by
  induction l with
  | nil => rfl
  | cons x xs ih =>
    have h1 : (x :: xs).length = xs.length + 1 := rfl
    rw [h1, List.range_succ_eq_map, List.map_cons, List.map_map]
    have h2 : rankAt (x :: xs) 0 = x := rfl
    have h3 : (rankAt (x :: xs) ∘ Nat.succ) = rankAt xs := by
      funext i
      rfl
    rw [h2, h3, ih]

/-- Helper: `addAt` preserves length. -/
theorem length_addAt (l : List ℚ) (i : ℕ) (w : ℚ) :
    (addAt l i w).length = l.length := List.length_set l i _

/-- Helper: pointwise description of `addAt`. -/
theorem rankAt_addAt (l : List ℚ) (i j : ℕ) (w : ℚ) :
    rankAt (addAt l j w) i =
      if j = i ∧ j < l.length then rankAt l i + w else rankAt l i := by
  induction l generalizing i j with
  | nil => simp [addAt, rankAt]
  | cons x xs ih =>
    cases j with
    | zero =>
      cases i with
      | zero => simp [addAt, rankAt, List.set]
      | succ i' => simp [addAt, rankAt, List.set]
    | succ j' =>
      cases i with
      | zero => simp [addAt, rankAt, List.set]
      | succ i' =>
        have := ih i' j'
        simp only [addAt, rankAt, List.set, List.getD_cons_succ] at this ⊢
        rw [this]
        simp [Nat.succ_lt_succ_iff]

/-- Helper: `addAt` at an in-range index increases the sum by `w`. -/
theorem sum_addAt (l : List ℚ) (i : ℕ) (w : ℚ) (h : i < l.length) :
    (addAt l i w).sum = l.sum + w := by
  induction l generalizing i with
  | nil => simp at h
  | cons x xs ih =>
    cases i with
    | zero => simp [addAt, rankAt, List.set]; ring
    | succ i' =>
      have h' : i' < xs.length := by simpa using h
      have := ih i' h'
      simp only [addAt, rankAt, List.set, List.getD_cons_succ, List.sum_cons] at this ⊢
      rw [this]
      ring

/-- Helper: `distribOne` preserves length. -/
theorem length_distribOne (w : ℚ) (outs : List ℕ) (new : List ℚ) :
    (distribOne w outs new).length = new.length := by
  induction outs generalizing new with
  | nil => rfl
  | cons t ts ih =>
    simp only [distribOne, List.foldl_cons] at ih ⊢
    rw [ih, length_addAt]

/-- Helper: `distribOne` adds `w` once per occurrence in `outs` when every
target is in range. -/
theorem sum_distribOne (w : ℚ) (outs : List ℕ) (new : List ℚ)
    (h : ∀ t ∈ outs, t < new.length) :
    (distribOne w outs new).sum = new.sum + outs.length * w := by
  induction outs generalizing new with
  | nil => simp [distribOne]
  | cons t ts ih =>
    simp only [distribOne, List.foldl_cons] at ih ⊢
    have ht : t < new.length := h t (List.mem_cons_self t ts)
    have hrest : ∀ x ∈ ts, x < (addAt new t w).length := by
      intro x hx
      rw [length_addAt]
      exact h x (List.mem_cons_of_mem t hx)
    rw [ih (addAt new t w) hrest, sum_addAt new t w ht, List.length_cons]
    push_cast
    ring

/-- Helper: `distribOne` only increases entries when `0 ≤ w`. -/
theorem rankAt_distribOne_ge (w : ℚ) (hw : 0 ≤ w) (outs : List ℕ) (new : List ℚ)
    (i : ℕ) : rankAt new i ≤ rankAt (distribOne w outs new) i := by
  induction outs generalizing new with
  | nil => simp [distribOne]
  | cons t ts ih =>
    simp only [distribOne, List.foldl_cons] at ih ⊢
    refine le_trans ?_ (ih (addAt new t w))
    rw [rankAt_addAt]
    split
    · linarith
    · exact le_refl _

/-- Helper: the distribution fold of `prRound` preserves length. -/
theorem length_prFold (g : ℕ → List ℕ) (gamma : ℚ) (pr : List ℚ) (js : List ℕ)
    (init : List ℚ) :
    (js.foldl
      (fun acc j =>
        if (g j).isEmpty then acc
        else distribOne (gamma * rankAt pr j / ((g j).length : ℚ)) (g j) acc)
      init).length = init.length := by
  induction js generalizing init with
  | nil => rfl
  | cons j js' ih =>
    simp only [List.foldl_cons]
    rw [ih]
    split
    · rfl
    · exact length_distribOne _ _ _

/-- Helper: sum of the distribution fold of `prRound`: every processed
non-sink `j` contributes its full `gamma * pr[j]`. -/
theorem sum_prFold (g : ℕ → List ℕ) (gamma : ℚ) (pr : List ℚ) (js : List ℕ)
    (init : List ℚ) (h : ∀ j ∈ js, ∀ t ∈ g j, t < init.length) :
    (js.foldl
      (fun acc j =>
        if (g j).isEmpty then acc
        else distribOne (gamma * rankAt pr j / ((g j).length : ℚ)) (g j) acc)
      init).sum =
      init.sum + gamma * ((js.filter (fun j => !(g j).isEmpty)).map (rankAt pr)).sum := by
  induction js generalizing init with
  | nil => simp
  | cons j js' ih =>
    by_cases hj : (g j).isEmpty
    · simp only [List.foldl_cons, List.filter_cons, hj, if_true, Bool.not_true,
        Bool.false_eq_true, if_false]
      exact ih init (fun x hx => h x (List.mem_cons_of_mem j hx))
    · have hj' : (g j).isEmpty = false := by simpa using hj
      simp only [List.foldl_cons, List.filter_cons, hj', Bool.not_false, if_true,
        Bool.false_eq_true, if_false]
      have hlen2 : ∀ x ∈ js', ∀ t ∈ g x, t <
          (distribOne (gamma * rankAt pr j / ((g j).length : ℚ)) (g j) init).length := by
        intro x hx t ht
        rw [length_distribOne]
        exact h x (List.mem_cons_of_mem j hx) t ht
      rw [ih _ hlen2,
          sum_distribOne _ _ _ (fun t ht => h j (List.mem_cons_self j js') t ht)]
      have hne : ((g j).length : ℚ) ≠ 0 := by
        have hnil : g j ≠ [] := by
          intro hnil
          exact hj (by simp [hnil])
        have hlen0 : (g j).length ≠ 0 := by
          simpa [List.length_eq_zero] using hnil
        exact_mod_cast hlen0
      have hcancel : ((g j).length : ℚ) * (gamma * rankAt pr j / ((g j).length : ℚ)) =
          gamma * rankAt pr j := by
        field_simp
      simp only [List.map_cons, List.sum_cons]
      rw [hcancel]
      ring

/-- Helper: splitting a mapped sum along a Boolean filter. -/
theorem sum_filter_split (js : List ℕ) (p : ℕ → Bool) (f : ℕ → ℚ) :
    ((js.filter p).map f).sum + ((js.filter (fun j => !p j)).map f).sum =
      (js.map f).sum := by
  induction js with
  | nil => simp
  | cons j js' ih =>
    by_cases hj : p j
    · simp only [List.filter_cons, hj, if_true, Bool.not_true, Bool.false_eq_true,
        if_false, List.map_cons, List.sum_cons]
      rw [← ih]
      ring
    · simp only [List.filter_cons, hj, Bool.false_eq_true, if_false, Bool.not_false,
        if_true, List.map_cons, List.sum_cons]
      rw [← ih]
      ring

/-- Helper: one `prRound` preserves length. -/
theorem length_prRound (g : ℕ → List ℕ) (N : ℕ) (gamma : ℚ) (pr : List ℚ) :
    (prRound g N gamma pr).length = N := by
  unfold prRound
  rw [length_prFold, List.length_replicate]

/-- Helper: one `prRound` preserves total mass 1 exactly (over ℚ). -/
theorem sum_prRound (g : ℕ → List ℕ) (N : ℕ) (gamma : ℚ) (pr : List ℚ)
    (hN : 0 < N) (hlen : pr.length = N)
    (htg : ∀ j, j < N → ∀ t ∈ g j, t < N) (hsum : pr.sum = 1) :
    (prRound g N gamma pr).sum = 1 := by
  unfold prRound
  have hNQ : ((N : ℚ)) ≠ 0 := by
    exact_mod_cast Nat.pos_iff_ne_zero.mp hN
  have hinit : ∀ j ∈ List.range N, ∀ t ∈ g j, t <
      (List.replicate N ((1 - gamma) / (N : ℚ) + gamma * sinkSum g N pr / (N : ℚ))).length := by
    intro j hj t ht
    rw [List.length_replicate]
    exact htg j (List.mem_range.mp hj) t ht
  rw [sum_prFold g gamma pr (List.range N) _ hinit]
  rw [List.sum_replicate]
  have hsplit := sum_filter_split (List.range N) (fun j => (g j).isEmpty) (rankAt pr)
  have hall : ((List.range N).map (rankAt pr)).sum = 1 := by
    rw [← hlen, rankAt_range, hsum]
  have hsink : ((List.range N).filter (fun j => (g j).isEmpty)).map (rankAt pr) =
      ((List.range (pr.length)).filter (fun j => (g j).isEmpty)).map (rankAt pr) := by
    rw [hlen]
  have hnonsink : (((List.range N).filter (fun j => !(g j).isEmpty)).map (rankAt pr)).sum =
      1 - sinkSum g N pr := by
    have hdef : sinkSum g N pr =
        (((List.range N).filter (fun j => (g j).isEmpty)).map (rankAt pr)).sum := rfl
    rw [hall] at hsplit
    linarith
  rw [hnonsink]
  rw [nsmul_eq_mul]
  field_simp
  ring

/-- Helper: the iteration loop preserves mass 1 and length. -/
theorem prIter_inv (g : ℕ → List ℕ) (N : ℕ) (gamma tol : ℚ) (k : ℕ) (pr : List ℚ)
    (hN : 0 < N) (htg : ∀ j, j < N → ∀ t ∈ g j, t < N)
    (hlen : pr.length = N) (hsum : pr.sum = 1) :
    (prIter g N gamma tol k pr).length = N ∧ (prIter g N gamma tol k pr).sum = 1 := by
  induction k generalizing pr with
  | zero => exact ⟨hlen, hsum⟩
  | succ k' ih =>
    unfold prIter
    have hlen' := length_prRound g N gamma pr
    have hsum' := sum_prRound g N gamma pr hN hlen htg hsum
    dsimp only
    split
    · exact ⟨hlen', hsum'⟩
    · exact ih (prRound g N gamma pr) hlen' hsum'

/-- Helper: entries of `replicate`. -/
theorem rankAt_replicate (N i : ℕ) (x : ℚ) (h : i < N) :
    rankAt (List.replicate N x) i = x := by
  induction N generalizing i with
  | zero => omega
  | succ n ih =>
    cases i with
    | zero => rfl
    | succ i' =>
      have : i' < n := by omega
      simpa [List.replicate_succ, rankAt] using ih i' this

/-- Helper: the distribution fold only increases entries when `gamma` and the
source ranks are nonnegative. -/
theorem rankAt_prFold_ge (g : ℕ → List ℕ) (gamma : ℚ) (pr : List ℚ) (js : List ℕ)
    (init : List ℚ) (hg : 0 ≤ gamma) (hpr : ∀ j ∈ js, 0 ≤ rankAt pr j) (i : ℕ) :
    rankAt init i ≤
      rankAt (js.foldl
        (fun acc j =>
          if (g j).isEmpty then acc
          else distribOne (gamma * rankAt pr j / ((g j).length : ℚ)) (g j) acc)
        init) i := by
  induction js generalizing init with
  | nil => exact le_refl _
  | cons j js' ih =>
    simp only [List.foldl_cons]
    refine le_trans ?_ (ih _ (fun x hx => hpr x (List.mem_cons_of_mem j hx)))
    by_cases hj : (g j).isEmpty
    · rw [if_pos hj]
    · rw [if_neg hj]
      refine rankAt_distribOne_ge _ ?_ _ _ _
      have hw1 : 0 ≤ gamma * rankAt pr j :=
        mul_nonneg hg (hpr j (List.mem_cons_self j js'))
      have hw2 : (0 : ℚ) ≤ ((g j).length : ℚ) := by positivity
      exact div_nonneg hw1 hw2

/-- Helper: every entry produced by one `prRound` is at least the base term
`(1 - gamma)/N`. -/
theorem prRound_ge (g : ℕ → List ℕ) (N : ℕ) (gamma : ℚ) (pr : List ℚ)
    (h0 : 0 ≤ gamma) (hpr : ∀ j, j < N → 0 ≤ rankAt pr j) (i : ℕ) (hi : i < N) :
    (1 - gamma) / (N : ℚ) ≤ rankAt (prRound g N gamma pr) i := by
  unfold prRound
  have hsink : 0 ≤ sinkSum g N pr := by
    refine List.sum_nonneg ?_
    intro x hx
    obtain ⟨j, hj, rfl⟩ := List.mem_map.mp hx
    exact hpr j (List.mem_range.mp (List.mem_of_mem_filter hj))
  have hadd : 0 ≤ gamma * sinkSum g N pr / (N : ℚ) := by
    have : (0 : ℚ) ≤ (N : ℚ) := by positivity
    exact div_nonneg (mul_nonneg h0 hsink) this
  have hinit : (1 - gamma) / (N : ℚ) ≤
      rankAt (List.replicate N ((1 - gamma) / (N : ℚ) + gamma * sinkSum g N pr / (N : ℚ))) i := by
    rw [rankAt_replicate N i _ hi]
    linarith
  refine le_trans hinit ?_
  exact rankAt_prFold_ge g gamma pr (List.range N) _ h0
    (fun j hj => hpr j (List.mem_range.mp hj)) i

/-- Helper: the iteration loop preserves the pointwise lower bound
`(1 - gamma)/N`. -/
theorem prIter_ge (g : ℕ → List ℕ) (N : ℕ) (gamma tol : ℚ) (k : ℕ) (pr : List ℚ)
    (h0 : 0 ≤ gamma) (h1 : gamma ≤ 1)
    (hpr : ∀ j, j < N → (1 - gamma) / (N : ℚ) ≤ rankAt pr j) (i : ℕ) (hi : i < N) :
    (1 - gamma) / (N : ℚ) ≤ rankAt (prIter g N gamma tol k pr) i := by
  induction k generalizing pr with
  | zero => exact hpr i hi
  | succ k' ih =>
    have hbase : (0 : ℚ) ≤ (1 - gamma) / (N : ℚ) := by
      have h1' : (0 : ℚ) ≤ 1 - gamma := by linarith
      have h2' : (0 : ℚ) ≤ (N : ℚ) := by positivity
      exact div_nonneg h1' h2'
    have hnn : ∀ j, j < N → 0 ≤ rankAt pr j := fun j hj => le_trans hbase (hpr j hj)
    have hstep : ∀ j, j < N → (1 - gamma) / (N : ℚ) ≤ rankAt (prRound g N gamma pr) j :=
      fun j hj => prRound_ge g N gamma pr h0 hnn j hj
    unfold prIter
    dsimp only
    split
    · exact hstep i hi
    · exact ih (prRound g N gamma pr) hstep

/-- Helper: entries of a `range`-map. -/
theorem rankAt_map_range (f : ℕ → ℚ) (N i : ℕ) (h : i < N) :
    rankAt ((List.range N).map f) i = f i := by
  induction N generalizing f i with
  | zero => omega
  | succ n ih =>
    rw [List.range_succ_eq_map, List.map_cons, List.map_map]
    cases i with
    | zero => rfl
    | succ i' =>
      have hi' : i' < n := by omega
      have h2 := ih (f ∘ Nat.succ) i' hi'
      simpa [rankAt] using h2

/-- Helper: the store-backed inbound rank sum is nonnegative when the
current ranks are. -/
theorem mongoRankSum_nonneg (docs : List MDoc) (N : ℕ) (pr : List ℚ) (i : ℕ)
    (hpr : ∀ j, j < N → 0 ≤ rankAt pr j) : 0 ≤ mongoRankSum docs N pr i := by
  refine List.sum_nonneg ?_
  intro x hx
  obtain ⟨j, hj, rfl⟩ := List.mem_map.mp hx
  have hjN : j < N := List.mem_range.mp (List.mem_of_mem_filter hj)
  have h1 : 0 ≤ rankAt pr j := hpr j hjN
  have h2 : (0 : ℚ) ≤ ((mongoOutlinks docs j).length : ℚ) := by positivity
  exact div_nonneg h1 h2

/-- Helper: every entry of one store-backed round is at least
`(1 - damping)/N`. -/
theorem mongoRound_ge (docs : List MDoc) (damping : ℚ) (N : ℕ) (pr : List ℚ)
    (hd : 0 ≤ damping) (hpr : ∀ j, j < N → 0 ≤ rankAt pr j) (i : ℕ) (hi : i < N) :
    (1 - damping) / (N : ℚ) ≤ rankAt (mongoRound docs damping N pr) i := by
  unfold mongoRound
  rw [rankAt_map_range _ N i hi]
  have := mongoRankSum_nonneg docs N pr i hpr
  nlinarith

/-- Helper: the store-backed iteration preserves the pointwise lower
bound. -/
theorem mongoIter_ge (docs : List MDoc) (damping : ℚ) (N : ℕ) (k : ℕ) (pr : List ℚ)
    (h0 : 0 ≤ damping) (h1 : damping ≤ 1)
    (hpr : ∀ j, j < N → (1 - damping) / (N : ℚ) ≤ rankAt pr j) (i : ℕ) (hi : i < N) :
    (1 - damping) / (N : ℚ) ≤ rankAt (mongoIter docs damping N k pr) i := by
  induction k generalizing pr with
  | zero => exact hpr i hi
  | succ k' ih =>
    have hbase : (0 : ℚ) ≤ (1 - damping) / (N : ℚ) := by
      have h1' : (0 : ℚ) ≤ 1 - damping := by linarith
      have h2' : (0 : ℚ) ≤ (N : ℚ) := by positivity
      exact div_nonneg h1' h2'
    have hnn : ∀ j, j < N → 0 ≤ rankAt pr j := fun j hj => le_trans hbase (hpr j hj)
    unfold mongoIter
    exact ih (mongoRound docs damping N pr)
      (fun j hj => mongoRound_ge docs damping N pr h0 hnn j hj)

/-- Helper: a fixed point of the store-backed round is preserved by any
number of iterations. -/
theorem mongoIterFix (docs : List MDoc) (d : ℚ) (N : ℕ) (pr : List ℚ)
    (h : mongoRound docs d N pr = pr) : ∀ k, mongoIter docs d N k pr = pr := by
  intro k
  induction k with
  | zero => rfl
  | succ k' ih =>
    unfold mongoIter
    rw [h, ih]

/-- Helper: with no resolved outbound links anywhere, one store-backed
round maps every document to the bare base term `(1 - d)/N` — the damping
mass `d` is lost (no sink redistribution). -/
theorem mongoRound_noLinks (docs : List MDoc) (d : ℚ) (N : ℕ)
    (h : ∀ j, mongoOutlinks docs j = []) (pr : List ℚ) :
    mongoRound docs d N pr = (List.range N).map (fun _ => (1 - d) / (N : ℚ)) := by
  unfold mongoRound
  refine List.map_congr_left ?_
  intro i _
  have hsum : mongoRankSum docs N pr i = 0 := by
    unfold mongoRankSum
    have hfil : (List.range N).filter
        (fun j => (mongoOutlinks docs j).contains i && !(mongoOutlinks docs j).isEmpty) = [] := by
      refine List.filter_eq_nil_iff.mpr ?_
      intro j _
      rw [h j]
      simp
    rw [hfil]
    rfl
  rw [hsum, mul_zero, add_zero]

/-- C2, counterexample to the claim as stated: the store-backed
`_calculate_pagerank` (cited by the claim) does not redistribute sink mass,
so on two stored documents with no links the returned ranks sum to `3/20`,
not approximately 1: the deviation `|3/20 − 1|` far exceeds the `1e-6`
convergence tolerance. -/
theorem c2_counterexample :
    (calculate_pagerank
        [⟨("a").data, [], [], [], []⟩, ⟨("b").data, [], [], [], []⟩]
        20 (85 / 100)).sum = 3 / 20 ∧
    ¬ |(3 : ℚ) / 20 - 1| < 1 / 1000000 := by
  constructor
  · have hout : ∀ j, mongoOutlinks
        [(⟨("a").data, [], [], [], []⟩ : MDoc), ⟨("b").data, [], [], [], []⟩] j = [] := by
      intro j
      match j with
      | 0 => rfl
      | 1 => rfl
      | (n + 2) => rfl
    have hconst := mongoRound_noLinks
      [(⟨("a").data, [], [], [], []⟩ : MDoc), ⟨("b").data, [], [], [], []⟩]
      (85 / 100) 2 hout
    have hfix : mongoRound
        [(⟨("a").data, [], [], [], []⟩ : MDoc), ⟨("b").data, [], [], [], []⟩]
        (85 / 100) 2 [(1 - 85 / 100) / (2 : ℚ), (1 - 85 / 100) / (2 : ℚ)] =
        [(1 - 85 / 100) / (2 : ℚ), (1 - 85 / 100) / (2 : ℚ)] := by
      rw [hconst]
      rfl
    have h20 : (20 : ℕ) = 19 + 1 := rfl
    unfold calculate_pagerank
    simp only [List.length_cons, List.length_nil]
    rw [h20]
    unfold mongoIter
    rw [hconst, show (List.range 2).map (fun _ => (1 - 85 / 100) / ((0+1+1 : ℕ) : ℚ)) =
        [(1 - 85 / 100) / (2 : ℚ), (1 - 85 / 100) / (2 : ℚ)] from by norm_num [List.range_succ]]
    rw [mongoIterFix _ _ _ _ hfix 19]
    norm_num
  · rw [abs_of_nonpos (by norm_num)]
    norm_num

/-- C2, amended: both implementations return an empty result for `N = 0`;
the file-backed `pagerank` (with sink redistribution) returns ranks summing
exactly to 1 — hence ≈ 1 within any tolerance — for every `N ≥ 1`, every
damping factor, every tolerance, and every iteration count; the
store-backed `_calculate_pagerank` does not preserve rank mass (see the
counterexample). -/
theorem c2_theorem :
    (∀ (g : ℕ → List ℕ) (gamma tol : ℚ) (mi : ℕ), pagerank g 0 gamma tol mi = []) ∧
    (∀ (its : ℕ) (d : ℚ), calculate_pagerank [] its d = []) ∧
    (∀ (g : ℕ → List ℕ) (N : ℕ) (gamma tol : ℚ) (mi : ℕ),
      0 < N → (∀ j, j < N → ∀ t ∈ g j, t < N) →
      (pagerank g N gamma tol mi).sum = 1) := by
  refine ⟨fun g gamma tol mi => rfl, fun its d => rfl, ?_⟩
  intro g N gamma tol mi hN htg
  unfold pagerank
  rw [if_neg (Nat.pos_iff_ne_zero.mp hN)]
  have hNQ : ((N : ℚ)) ≠ 0 := by exact_mod_cast Nat.pos_iff_ne_zero.mp hN
  have hinit_len : (List.replicate N ((1 : ℚ) / (N : ℚ))).length = N :=
    List.length_replicate N _
  have hinit_sum : (List.replicate N ((1 : ℚ) / (N : ℚ))).sum = 1 := by
    rw [List.sum_replicate, nsmul_eq_mul]
    field_simp
  exact (prIter_inv g N gamma tol mi _ hN htg hinit_len hinit_sum).2

/-- C2, witness: a single-document graph with no links has total rank
exactly 1 under the file-backed implementation. -/
theorem c2_witness :
    0 < 1 ∧ (pagerank (fun _ => []) 1 (85 / 100) (1 / 1000000) 100).sum = 1 :=
  ⟨by decide,
    c2_theorem.2.2 (fun _ => []) 1 (85 / 100) (1 / 1000000) 100 (by decide)
      (fun j _ t ht => absurd ht (List.not_mem_nil t))⟩

/-- C10: for every link graph over `N ≥ 1` documents and damping factor in
`(0,1)`, both PageRank implementations return ranks bounded below by
`(1 − damping)/N`, hence strictly positive — including for documents with
no inbound links.  (The link-target bound on the file-backed graph is the
domain condition under which the Python dict-based code runs without
`KeyError`.) -/
theorem c10_theorem :
    (∀ (g : ℕ → List ℕ) (N : ℕ) (gamma tol : ℚ) (mi : ℕ),
      0 < N → 0 < gamma → gamma < 1 → (∀ j, j < N → ∀ t ∈ g j, t < N) →
      ∀ i, i < N →
        (1 - gamma) / (N : ℚ) ≤ rankAt (pagerank g N gamma tol mi) i ∧
        0 < rankAt (pagerank g N gamma tol mi) i) ∧
    (∀ (docs : List MDoc) (its : ℕ) (d : ℚ),
      0 < d → d < 1 → 0 < docs.length →
      ∀ i, i < docs.length →
        (1 - d) / (docs.length : ℚ) ≤ rankAt (calculate_pagerank docs its d) i ∧
        0 < rankAt (calculate_pagerank docs its d) i) := by
  constructor
  · intro g N gamma tol mi hN hg0 hg1 _htg i hi
    have hN0 : (0 : ℚ) < (N : ℚ) := by exact_mod_cast hN
    have hbasepos : (0 : ℚ) < (1 - gamma) / (N : ℚ) := div_pos (by linarith) hN0
    have hinit : ∀ j, j < N →
        (1 - gamma) / (N : ℚ) ≤ rankAt (List.replicate N ((1 : ℚ) / (N : ℚ))) j := by
      intro j hj
      rw [rankAt_replicate N j _ hj, div_eq_mul_inv, div_eq_mul_inv]
      exact mul_le_mul_of_nonneg_right (by linarith) (by positivity)
    have hmain : (1 - gamma) / (N : ℚ) ≤ rankAt (pagerank g N gamma tol mi) i := by
      unfold pagerank
      rw [if_neg (Nat.pos_iff_ne_zero.mp hN)]
      exact prIter_ge g N gamma tol mi _ (le_of_lt hg0) (le_of_lt hg1) hinit i hi
    exact ⟨hmain, lt_of_lt_of_le hbasepos hmain⟩
  · intro docs its d hd0 hd1 hlen i hi
    have hN0 : (0 : ℚ) < (docs.length : ℚ) := by exact_mod_cast hlen
    have hbasepos : (0 : ℚ) < (1 - d) / (docs.length : ℚ) := div_pos (by linarith) hN0
    have hinit : ∀ j, j < docs.length →
        (1 - d) / (docs.length : ℚ) ≤
          rankAt (List.replicate docs.length ((1 : ℚ) / (docs.length : ℚ))) j := by
      intro j hj
      rw [rankAt_replicate docs.length j _ hj, div_eq_mul_inv, div_eq_mul_inv]
      exact mul_le_mul_of_nonneg_right (by linarith) (by positivity)
    have hmain : (1 - d) / (docs.length : ℚ) ≤ rankAt (calculate_pagerank docs its d) i := by
      unfold calculate_pagerank
      rw [if_neg (Nat.pos_iff_ne_zero.mp hlen)]
      exact mongoIter_ge docs d docs.length its _ (le_of_lt hd0) (le_of_lt hd1) hinit i hi
    exact ⟨hmain, lt_of_lt_of_le hbasepos hmain⟩

/-- C10, witness: on a one-document graph with no links, both
implementations assign document 0 a rank at least `(1 − 0.85)/1`, which is
positive. -/
theorem c10_witness :
    ((1 - 85 / 100 : ℚ) / ((1 : ℕ) : ℚ) ≤
        rankAt (pagerank (fun _ => []) 1 (85 / 100) (1 / 1000000) 100) 0 ∧
      0 < rankAt (pagerank (fun _ => []) 1 (85 / 100) (1 / 1000000) 100) 0) ∧
    ((1 - 85 / 100 : ℚ) /
          (([⟨("a").data, [], [], [], []⟩] : List MDoc).length : ℚ) ≤
        rankAt (calculate_pagerank [⟨("a").data, [], [], [], []⟩] 20 (85 / 100)) 0 ∧
      0 < rankAt (calculate_pagerank [⟨("a").data, [], [], [], []⟩] 20 (85 / 100)) 0) :=
  ⟨c10_theorem.1 (fun _ => []) 1 (85 / 100) (1 / 1000000) 100 (by decide)
      (by norm_num) (by norm_num)
      (fun j _ t ht => absurd ht (List.not_mem_nil t)) 0 (by decide),
    c10_theorem.2 [⟨("a").data, [], [], [], []⟩] 20 (85 / 100)
      (by norm_num) (by norm_num) (by decide) 0 (by decide)⟩

/-- Helper: core BM25 monotonicity fact: `t ↦ t·K/(t + C)` is monotone for
`K, C ≥ 0` on `t ≥ 1`. -/
theorem bm25_mono_core (t t' C K : ℚ) (ht : 1 ≤ t) (htt : t ≤ t')
    (hC : 0 ≤ C) (hK : 0 ≤ K) : t * K / (t + C) ≤ t' * K / (t' + C) := by
  have hD : (0 : ℚ) < t + C := by linarith
  have hD' : (0 : ℚ) < t' + C := by linarith
  rw [div_le_div_iff₀ hD hD']
  nlinarith [mul_nonneg (mul_nonneg hK hC) (sub_nonneg.mpr htt)]

/-- C4: in both search paths, increasing a term's frequency while holding
the document length, IDF table and average document length fixed never
decreases that term's BM25 contribution; and the IDF values the builders
produce (for `df ≤ N`) are nonnegative, as the monotonicity argument
requires. -/
theorem c4_theorem :
    (∀ (idfSc : ℚ) (tf tf' dl : ℕ) (avgdl : ℚ),
      0 ≤ idfSc → 1 ≤ tf → tf ≤ tf' → 0 ≤ avgdl →
      bm25TermMongo idfSc tf dl avgdl ≤ bm25TermMongo idfSc tf' dl avgdl) ∧
    (∀ (idfSc : ℚ) (tf tf' dl : ℕ) (avgdl : ℚ),
      0 ≤ idfSc → 1 ≤ tf → tf ≤ tf' → 0 ≤ avgdl →
      bm25TermMini idfSc tf dl avgdl ≤ bm25TermMini idfSc tf' dl avgdl) ∧
    (∀ n df : ℕ, df ≤ n → 0 ≤ idfStore n df ∧ 0 ≤ idfFile n df) := by
  refine ⟨?_, ?_, ?_⟩
  · intro idfSc tf tf' dl avgdl hidf htf htt havg
    unfold bm25TermMongo
    have hC : (0 : ℚ) ≤ (3 / 2) * (1 - 3 / 4 + 3 / 4 * ((dl : ℚ) / avgdl)) := by
      have hr : (0 : ℚ) ≤ (dl : ℚ) / avgdl := div_nonneg (by positivity) havg
      nlinarith
    have ht1 : (1 : ℚ) ≤ (tf : ℚ) := by exact_mod_cast htf
    have htt' : ((tf : ℚ)) ≤ (tf' : ℚ) := by exact_mod_cast htt
    have hcore := bm25_mono_core (tf : ℚ) (tf' : ℚ)
      ((3 / 2) * (1 - 3 / 4 + 3 / 4 * ((dl : ℚ) / avgdl))) ((3 : ℚ) / 2 + 1)
      ht1 htt' hC (by norm_num)
    dsimp only
    exact mul_le_mul_of_nonneg_left hcore hidf
  · intro idfSc tf tf' dl avgdl hidf htf htt havg
    unfold bm25TermMini
    dsimp only
    have havgEff : (0 : ℚ) < (if avgdl = 0 then 1 else avgdl) := by
      split
      · norm_num
      · rename_i hne
        exact lt_of_le_of_ne havg (Ne.symm hne)
    have hr : (0 : ℚ) ≤ (dl : ℚ) / (if avgdl = 0 then 1 else avgdl) :=
      div_nonneg (by positivity) (le_of_lt havgEff)
    have hC : (0 : ℚ) ≤ (6 / 5) * (1 + 3 / 4 * ((dl : ℚ) / (if avgdl = 0 then 1 else avgdl) - 1)) := by
      nlinarith
    have ht1 : (1 : ℚ) ≤ (tf : ℚ) := by exact_mod_cast htf
    have htt' : ((tf : ℚ)) ≤ (tf' : ℚ) := by exact_mod_cast htt
    have hden : ∀ u : ℚ, 1 ≤ u →
        ((u : ℚ) + (6 / 5) * (1 + 3 / 4 * ((dl : ℚ) / (if avgdl = 0 then 1 else avgdl) - 1))) ≠ 0 := by
      intro u hu
      have : (0 : ℚ) < u + (6 / 5) * (1 + 3 / 4 * ((dl : ℚ) / (if avgdl = 0 then 1 else avgdl) - 1)) := by
        linarith
      linarith
    rw [if_neg (hden (tf : ℚ) ht1), if_neg (hden (tf' : ℚ) (le_trans ht1 htt'))]
    have hcore := bm25_mono_core (tf : ℚ) (tf' : ℚ)
      ((6 / 5) * (1 + 3 / 4 * ((dl : ℚ) / (if avgdl = 0 then 1 else avgdl) - 1))) ((6 : ℚ) / 5 + 1)
      ht1 htt' hC (by norm_num)
    have h2 : idfSc * ((tf : ℚ) * (6 / 5 + 1)) / ((tf : ℚ) + (6 / 5) * (1 + 3 / 4 * ((dl : ℚ) / (if avgdl = 0 then 1 else avgdl) - 1))) =
        idfSc * ((tf : ℚ) * (6 / 5 + 1) / ((tf : ℚ) + (6 / 5) * (1 + 3 / 4 * ((dl : ℚ) / (if avgdl = 0 then 1 else avgdl) - 1)))) := by
      ring
    have h3 : idfSc * ((tf' : ℚ) * (6 / 5 + 1)) / ((tf' : ℚ) + (6 / 5) * (1 + 3 / 4 * ((dl : ℚ) / (if avgdl = 0 then 1 else avgdl) - 1))) =
        idfSc * ((tf' : ℚ) * (6 / 5 + 1) / ((tf' : ℚ) + (6 / 5) * (1 + 3 / 4 * ((dl : ℚ) / (if avgdl = 0 then 1 else avgdl) - 1)))) := by
      ring
    rw [h2, h3]
    exact mul_le_mul_of_nonneg_left hcore hidf
  · intro n df hdf
    have harg : (0 : ℝ) ≤ ((n : ℝ) - (df : ℝ) + 1 / 2) / ((df : ℝ) + 1 / 2) := by
      have h1 : (0 : ℝ) ≤ (n : ℝ) - (df : ℝ) + 1 / 2 := by
        have : ((df : ℝ)) ≤ (n : ℝ) := by exact_mod_cast hdf
        linarith
      have h2 : (0 : ℝ) < (df : ℝ) + 1 / 2 := by positivity
      exact div_nonneg h1 (le_of_lt h2)
    constructor
    · unfold idfStore
      exact Real.log_nonneg (by linarith)
    · unfold idfFile
      exact Real.log_nonneg (by linarith)

/-- C4, witness: concrete instance with `idf = 1`, `tf` raised from 1 to 2,
`dl = 1`, `avgdl = 1`, and IDF nonnegativity at `N = 10`, `df = 3`. -/
theorem c4_witness :
    (bm25TermMongo 1 1 1 1 ≤ bm25TermMongo 1 2 1 1) ∧
    (bm25TermMini 1 1 1 1 ≤ bm25TermMini 1 2 1 1) ∧
    (0 ≤ idfStore 10 3 ∧ 0 ≤ idfFile 10 3) :=
  ⟨c4_theorem.1 1 1 2 1 1 (by norm_num) (by decide) (by decide) (by norm_num),
    c4_theorem.2.1 1 1 2 1 1 (by norm_num) (by decide) (by decide) (by norm_num),
    c4_theorem.2.2 10 3 (by decide)⟩

/-- Helper: the BM25 fold of the store-backed search adds nothing when no
query term is in the inverted index. -/
theorem mongoBM25_zero (idx : SIndex) (qterms : List Chars) (i : ℕ)
    (h : ∀ t ∈ qterms, idx.inv.lookup t = none) : mongoBM25 idx qterms i = 0 := by
  unfold mongoBM25
  have hgen : ∀ (init : ℚ), qterms.foldl
      (fun sc t =>
        match idx.inv.lookup t with
        | none => sc
        | some plist =>
          let tf := postTf plist i
          if tf = 0 then sc
          else sc + bm25TermMongo ((idx.idf.lookup t).getD 0) tf (idx.doclen.getD i 0) idx.avgdl)
      init = init := by
    induction qterms with
    | nil => intro init; rfl
    | cons t ts ih =>
      intro init
      have hts : ∀ x ∈ ts, idx.inv.lookup x = none :=
        fun x hx => h x (List.mem_cons_of_mem t hx)
      have ht : idx.inv.lookup t = none := h t (List.mem_cons_self t ts)
      simp only [List.foldl_cons, ht]
      exact ih hts init
  have hgen' := hgen 0
  exact hgen'

/-- Helper: with no query term in the inverted index, no document gets a
positive score. -/
theorem mongoScores_nil (idx : SIndex) (qterms : List Chars)
    (h : ∀ t ∈ qterms, idx.inv.lookup t = none) : mongoScores idx qterms = [] := by
  unfold mongoScores
  refine List.filter_eq_nil_iff.mpr ?_
  intro p hp
  obtain ⟨i, _, rfl⟩ := List.mem_map.mp hp
  simp only [decide_eq_true_eq]
  rw [mongoBM25_zero idx qterms i h]
  exact lt_irrefl 0

/-- Helper: `bm25_scores` returns the empty dict when no query term
survives in the IDF table. -/
theorem bm25_scores_novocab (qterms : List Chars) (idf : List (Chars × ℚ))
    (postings : List (Chars × List (ℕ × ℕ))) (doclen : List ℕ) (avgdl : ℚ)
    (h : ∀ t ∈ qterms, idf.lookup t = none) :
    bm25_scores qterms idf postings doclen avgdl = [] := by
  unfold bm25_scores
  have hfil : qterms.filter (fun t => (idf.lookup t).isSome) = [] := by
    refine List.filter_eq_nil_iff.mpr ?_
    intro t ht
    rw [h t ht]
    simp
  rw [hfil]
  rfl

/-- C6: building the store-backed index over an empty document set returns
the explicit empty result `None` rather than raising; searching with no
index returns the empty list; a query none of whose tokens survives in the
vocabulary (inverted index / IDF table) returns the empty list, in both the
store-backed and the file-backed paths (for the latter, `bm25_scores`
returns the empty dict and `hybrid_rank` the empty list). -/
theorem c6_theorem :
    (∀ logF : ℚ → ℚ, build_index logF [] = none) ∧
    (∀ (q : Chars) (alpha beta : ℚ) (k : ℕ) (tb : ℚ),
      search none q alpha beta k tb = []) ∧
    (∀ (idx : SIndex) (q : Chars) (alpha beta : ℚ) (k : ℕ) (tb : ℚ),
      (∀ t ∈ tokenize q, idx.inv.lookup t = none) →
      searchIdx idx q alpha beta k tb = []) ∧
    (∀ (qterms : List Chars) (idf : List (Chars × ℚ))
        (postings : List (Chars × List (ℕ × ℕ))) (doclen : List ℕ) (avgdl : ℚ),
      (∀ t ∈ qterms, idf.lookup t = none) →
      bm25_scores qterms idf postings doclen avgdl = []) ∧
    (∀ (idx : MiniIndex) (postings : List (Chars × List (ℕ × ℕ))) (pr : List ℚ)
        (q : Chars) (alpha beta : ℚ) (k : ℕ) (tb : ℚ),
      (∀ t ∈ tokenize q, idx.idf.lookup t = none) →
      hybrid_rank idx postings pr q alpha beta k tb = []) := by
  refine ⟨fun logF => rfl, fun q alpha beta k tb => rfl, ?_, ?_, ?_⟩
  · intro idx q alpha beta k tb h
    unfold searchIdx
    by_cases hq : tokenize q = []
    · rw [if_pos hq]
    · rw [if_neg hq, if_pos (mongoScores_nil idx (tokenize q) h)]
  · intro qterms idf postings doclen avgdl h
    exact bm25_scores_novocab qterms idf postings doclen avgdl h
  · intro idx postings pr q alpha beta k tb h
    unfold hybrid_rank
    dsimp only
    rw [bm25_scores_novocab (tokenize q) idx.idf postings idx.doclen idx.avgdl h]
    rfl

/-- C6, witness: concrete instances — empty build, missing index, and a
query (`"zz"`) absent from a one-term vocabulary, on both paths. -/
theorem c6_witness :
    (build_index (fun q => q) [] = none) ∧
    (search none (("zz").data) (2 / 10) (8 / 10) 10 (1 / 2) = []) ∧
    (searchIdx ⟨[⟨("u").data, ("T").data, 1, []⟩], [1], 1,
        [(("x").data, 1)], [(("x").data, [(0, 1)])], [1]⟩
      (("zz").data) (2 / 10) (8 / 10) 10 (1 / 2) = []) ∧
    (bm25_scores [("zz").data] [(("x").data, 1)] [(("x").data, [(0, 1)])] [1] 1 = []) ∧
    (hybrid_rank ⟨[(("x").data, 1)], 1, [1], [⟨("u").data, ("T").data, 1, []⟩]⟩
      [(("x").data, [(0, 1)])] [1] (("zz").data) (2 / 10) (8 / 10) 10 (1 / 2) = []) :=
  ⟨c6_theorem.1 (fun q => q),
    c6_theorem.2.1 _ _ _ _ _,
    c6_theorem.2.2.1 _ _ _ _ _ _ (by decide),
    c6_theorem.2.2.2.1 _ _ _ _ _ (by decide),
    c6_theorem.2.2.2.2 _ _ _ _ _ _ _ _ (by decide)⟩

/-- Helper: a `+`-accumulating fold is the initial value plus a mapped
sum. -/
theorem foldl_add_eq_sum (f : α → ℚ) (l : List α) (init : ℚ) :
    l.foldl (fun m x => m + f x) init = init + (l.map f).sum := by
  induction l generalizing init with
  | nil => simp
  | cons x xs ih =>
    simp only [List.foldl_cons, List.map_cons, List.sum_cons]
    rw [ih (init + f x)]
    ring

/-- Helper: the code's `title_match_score` computes exactly the
specification's title/URL boost formula. -/
theorem title_match_score_eq (d : Document) (qterms : List Chars) (tb : ℚ) :
    title_match_score d qterms tb = titleBoost_spec d qterms tb := by
  unfold title_match_score titleBoost_spec
  dsimp only
  rw [foldl_add_eq_sum]
  rw [zero_add]
  split
  · rename_i hz
    rw [hz]
    rw [zero_div, mul_zero]
  · rfl

/-- Helper: successful association-list lookup means membership. -/
theorem lookup_mem {α β : Type} [BEq α] [LawfulBEq α] (a : α) (b : β)
    (l : List (α × β)) (h : List.lookup a l = some b) : (a, b) ∈ l := by
  induction l with
  | nil => simp [List.lookup] at h
  | cons kv rest ih =>
    cases kv with
    | mk k v =>
      simp only [List.lookup] at h
      by_cases hab : (a == k) = true
      · rw [hab] at h
        simp only [Option.some.injEq] at h
        have hk : a = k := eq_of_beq hab
        subst hk
        rw [← h]
        exact List.mem_cons_self _ _
      · have hab' : (a == k) = false := by simpa using hab
        rw [hab'] at h
        exact List.mem_cons_of_mem _ (ih h)

/-- Helper: one store-backed BM25 term contribution is nonnegative. -/
theorem bm25TermMongo_nonneg (idfSc : ℚ) (tf dl : ℕ) (avgdl : ℚ)
    (hidf : 0 ≤ idfSc) (htf : 1 ≤ tf) (havg : 0 ≤ avgdl) :
    0 ≤ bm25TermMongo idfSc tf dl avgdl := by
  unfold bm25TermMongo
  dsimp only
  have ht1 : (1 : ℚ) ≤ (tf : ℚ) := by exact_mod_cast htf
  have hr : (0 : ℚ) ≤ (dl : ℚ) / avgdl := div_nonneg (by positivity) havg
  have hden : (0 : ℚ) < (tf : ℚ) + 3 / 2 * (1 - 3 / 4 + 3 / 4 * ((dl : ℚ) / avgdl)) := by
    nlinarith
  have hnum : (0 : ℚ) ≤ (tf : ℚ) * (3 / 2 + 1) := by positivity
  exact mul_nonneg hidf (div_nonneg hnum (le_of_lt hden))

/-- Helper: the store-backed BM25 score is nonnegative whenever the IDF
table is nonnegative and `avgdl` is. -/
theorem mongoBM25_nonneg (idx : SIndex) (qterms : List Chars) (i : ℕ)
    (hidf : ∀ pv ∈ idx.idf, 0 ≤ pv.2) (havg : 0 ≤ idx.avgdl) :
    0 ≤ mongoBM25 idx qterms i := by
  unfold mongoBM25
  have hgen : ∀ (init : ℚ), 0 ≤ init → 0 ≤ qterms.foldl
      (fun sc t =>
        match idx.inv.lookup t with
        | none => sc
        | some plist =>
          let tf := postTf plist i
          if tf = 0 then sc
          else sc + bm25TermMongo ((idx.idf.lookup t).getD 0) tf (idx.doclen.getD i 0) idx.avgdl)
      init := by
    induction qterms with
    | nil => intro init h; exact h
    | cons t ts ih =>
      intro init hinit
      simp only [List.foldl_cons]
      refine ih _ ?_
      match hl : idx.inv.lookup t with
      | none => exact hinit
      | some plist =>
        dsimp only
        split
        · exact hinit
        · rename_i htf
          have htf1 : 1 ≤ postTf plist i := Nat.one_le_iff_ne_zero.mpr htf
          have hidfv : 0 ≤ (idx.idf.lookup t).getD 0 := by
            match hv : idx.idf.lookup t with
            | none => exact le_refl 0
            | some v => exact hidf (t, v) (lookup_mem t v idx.idf hv)
          have := bm25TermMongo_nonneg ((idx.idf.lookup t).getD 0) (postTf plist i)
            (idx.doclen.getD i 0) idx.avgdl hidfv htf1 havg
          exact add_nonneg hinit this
  exact hgen 0 (le_refl 0)

/-- Helper: stable insertion is a permutation of consing. -/
theorem insertLe_perm (le : α → α → Bool) (x : α) (l : List α) :
    List.Perm (insertLe le x l) (x :: l) := by
  induction l with
  | nil => exact List.Perm.refl _
  | cons y ys ih =>
    unfold insertLe
    split
    · exact List.Perm.trans (List.Perm.cons y ih) (List.Perm.swap x y ys)
    · exact List.Perm.refl _

/-- Helper: the insertion-sort fold permutes the accumulator and input. -/
theorem stableSortAux_perm (le : α → α → Bool) :
    ∀ (l acc : List α),
      List.Perm (l.foldl (fun a x => insertLe le x a) acc) (acc ++ l)
  | [], acc => by simp
  | x :: xs, acc => by
    simp only [List.foldl_cons]
    refine (stableSortAux_perm le xs (insertLe le x acc)).trans ?_
    refine List.Perm.trans (List.Perm.append_right xs (insertLe_perm le x acc)) ?_
    exact List.perm_middle.symm

/-- Helper: `stableSort` permutes its input. -/
theorem stableSort_perm (le : α → α → Bool) (l : List α) :
    List.Perm (stableSort le l) l := by
  simpa using stableSortAux_perm le l []

/-- Helper: membership in a stable sort. -/
theorem mem_stableSort (le : α → α → Bool) (l : List α) (a : α) :
    a ∈ stableSort le l ↔ a ∈ l := (stableSort_perm le l).mem_iff

/-- Helper: membership in a stable insertion. -/
theorem mem_insertLe (le : α → α → Bool) (x : α) (l : List α) (a : α) :
    a ∈ insertLe le x l ↔ a = x ∨ a ∈ l := by
  rw [(insertLe_perm le x l).mem_iff, List.mem_cons]

/-- Helper: stable insertion preserves sortedness for a total transitive
comparison. -/
theorem insertLe_pairwise (le : α → α → Bool)
    (htrans : ∀ a b c, le a b = true → le b c = true → le a c = true)
    (htot : ∀ a b, le a b = true ∨ le b a = true) (x : α) (l : List α)
    (hl : List.Pairwise (fun a b => le a b = true) l) :
    List.Pairwise (fun a b => le a b = true) (insertLe le x l) := by
  induction l with
  | nil => simp [insertLe]
  | cons y ys ih =>
    rw [List.pairwise_cons] at hl
    unfold insertLe
    split
    · rename_i hyx
      rw [List.pairwise_cons]
      constructor
      · intro a ha
        rw [mem_insertLe] at ha
        rcases ha with rfl | ha
        · exact hyx
        · exact hl.1 a ha
      · exact ih hl.2
    · rename_i hyx
      have hxy : le x y = true := by
        rcases htot x y with h | h
        · exact h
        · exact absurd h hyx
      rw [List.pairwise_cons]
      constructor
      · intro a ha
        rw [List.mem_cons] at ha
        rcases ha with rfl | ha
        · exact hxy
        · exact htrans x y a hxy (hl.1 a ha)
      · rw [List.pairwise_cons]
        exact hl

/-- Helper: the insertion-sort fold keeps the accumulator sorted. -/
theorem stableSortAux_pairwise (le : α → α → Bool)
    (htrans : ∀ a b c, le a b = true → le b c = true → le a c = true)
    (htot : ∀ a b, le a b = true ∨ le b a = true) :
    ∀ (l acc : List α), List.Pairwise (fun a b => le a b = true) acc →
      List.Pairwise (fun a b => le a b = true)
        (l.foldl (fun a x => insertLe le x a) acc)
  | [], _, hacc => hacc
  | x :: xs, acc, hacc => by
    simp only [List.foldl_cons]
    exact stableSortAux_pairwise le htrans htot xs (insertLe le x acc)
      (insertLe_pairwise le htrans htot x acc hacc)

/-- Helper: `stableSort` sorts with respect to a total transitive
comparison. -/
theorem stableSort_pairwise (le : α → α → Bool)
    (htrans : ∀ a b c, le a b = true → le b c = true → le a c = true)
    (htot : ∀ a b, le a b = true ∨ le b a = true) (l : List α) :
    List.Pairwise (fun a b => le a b = true) (stableSort le l) :=
  stableSortAux_pairwise le htrans htot l [] (List.Pairwise.nil)

/-- Helper: elements of the store-backed score dict are exactly pairs
`(i, mongoBM25 i)`. -/
theorem mongoScores_shape (idx : SIndex) (qterms : List Chars) (p : ℕ × ℚ)
    (h : p ∈ mongoScores idx qterms) :
    p.1 < idx.docs.length ∧ p = (p.1, mongoBM25 idx qterms p.1) := by
  unfold mongoScores at h
  have h1 := List.mem_of_mem_filter h
  obtain ⟨i, hi, rfl⟩ := List.mem_map.mp h1
  exact ⟨List.mem_range.mp hi, rfl⟩

/-- C3: in both search paths, the final ranking score attached to every
scored document is `bm25(d) × (alpha + beta·pagerankNorm(d) +
titleBoost(d))` with `titleBoost` computed exactly as the specification
words it (`titleBoost_spec`).  The first conjunct states it for the
store-backed `final_scores` dict at every document with nonzero BM25 score
(nonnegative IDF values and `avgdl` are the conditions the built index
always satisfies); the other two conjuncts state it for every result the
two search functions return. -/
theorem c3_theorem :
    (∀ (idx : SIndex) (q : Chars) (alpha beta tb : ℚ),
      (∀ pv ∈ idx.idf, 0 ≤ pv.2) → 0 ≤ idx.avgdl →
      ∀ i, i < idx.docs.length → mongoBM25 idx (tokenize q) i ≠ 0 →
        (i, mongoBM25 idx (tokenize q) i *
          (alpha + beta * mongoPrNorm idx i +
            titleBoost_spec (idx.docs.getD i dfltDoc) (tokenize q) tb)) ∈
          mongoFinalScores idx (tokenize q) alpha beta tb) ∧
    (∀ (idx : SIndex) (q : Chars) (alpha beta : ℚ) (k : ℕ) (tb : ℚ),
      ∀ p ∈ searchIdx idx q alpha beta k tb,
        ∃ i, i < idx.docs.length ∧
          p = (idx.docs.getD i dfltDoc, mongoBM25 idx (tokenize q) i *
            (alpha + beta * mongoPrNorm idx i +
              titleBoost_spec (idx.docs.getD i dfltDoc) (tokenize q) tb))) ∧
    (∀ (idx : MiniIndex) (postings : List (Chars × List (ℕ × ℕ))) (pr : List ℚ)
        (q : Chars) (alpha beta : ℚ) (k : ℕ) (tb : ℚ),
      ∀ p ∈ hybrid_rank idx postings pr q alpha beta k tb,
        ∃ i v, (i, v) ∈ bm25_scores (tokenize q) idx.idf postings idx.doclen idx.avgdl ∧
          p = (idx.docs.getD i dfltDoc, v *
            (alpha + beta * miniPrNorm pr i +
              titleBoost_spec (idx.docs.getD i dfltDoc) (tokenize q) tb))) := by
  refine ⟨?_, ?_, ?_⟩
  · intro idx q alpha beta tb hidf havg i hi hne
    have hpos : 0 < mongoBM25 idx (tokenize q) i :=
      lt_of_le_of_ne (mongoBM25_nonneg idx (tokenize q) i hidf havg) (Ne.symm hne)
    have hmem : (i, mongoBM25 idx (tokenize q) i) ∈ mongoScores idx (tokenize q) := by
      unfold mongoScores
      refine List.mem_filter.mpr ⟨List.mem_map.mpr ⟨i, List.mem_range.mpr hi, rfl⟩, ?_⟩
      simpa using hpos
    unfold mongoFinalScores
    refine List.mem_map.mpr ⟨(i, mongoBM25 idx (tokenize q) i), hmem, ?_⟩
    rw [title_match_score_eq]
  · intro idx q alpha beta k tb p hp
    unfold searchIdx at hp
    by_cases hq : tokenize q = []
    · rw [if_pos hq] at hp
      exact absurd hp (List.not_mem_nil p)
    · rw [if_neg hq] at hp
      by_cases hbm : mongoScores idx (tokenize q) = []
      · rw [if_pos hbm] at hp
        exact absurd hp (List.not_mem_nil p)
      · rw [if_neg hbm] at hp
        obtain ⟨pe, hpe, rfl⟩ := List.mem_map.mp hp
        have hpe2 : pe ∈ sortByScoreDesc (mongoFinalScores idx (tokenize q) alpha beta tb) :=
          List.take_subset _ _ hpe
        have hpe3 : pe ∈ mongoFinalScores idx (tokenize q) alpha beta tb := by
          unfold sortByScoreDesc at hpe2
          exact (mem_stableSort _ _ _).mp hpe2
        unfold mongoFinalScores at hpe3
        obtain ⟨ps, hps, rfl⟩ := List.mem_map.mp hpe3
        obtain ⟨hlt, hsh⟩ := mongoScores_shape idx (tokenize q) ps hps
        refine ⟨ps.1, hlt, ?_⟩
        rw [title_match_score_eq]
        have h2 : ps.2 = mongoBM25 idx (tokenize q) ps.1 := congrArg Prod.snd hsh
        rw [h2]
  · intro idx postings pr q alpha beta k tb p hp
    unfold hybrid_rank at hp
    dsimp only at hp
    by_cases hbm : bm25_scores (tokenize q) idx.idf postings idx.doclen idx.avgdl = []
    · rw [if_pos hbm] at hp
      exact absurd hp (List.not_mem_nil p)
    · rw [if_neg hbm] at hp
      obtain ⟨pe, hpe, rfl⟩ := List.mem_map.mp hp
      have hpe2 := List.take_subset _ _ hpe
      have hpe3 := (mem_stableSort _ _ _).mp hpe2
      obtain ⟨ps, hps, rfl⟩ := List.mem_map.mp hpe3
      refine ⟨ps.1, ps.2, hps, ?_⟩
      rw [title_match_score_eq]

/-- C3, witness: on a concrete one-document index and the query `"go"`,
document 0 has nonzero BM25 score and its entry in `final_scores` carries
exactly the specification's formula. -/
theorem c3_witness :
    (0, mongoBM25 c3idx (tokenize (("go").data)) 0 *
      (2 / 10 + 8 / 10 * mongoPrNorm c3idx 0 +
        titleBoost_spec (c3idx.docs.getD 0 dfltDoc) (tokenize (("go").data)) (1 / 2))) ∈
      mongoFinalScores c3idx (tokenize (("go").data)) (2 / 10) (8 / 10) (1 / 2) :=
  c3_theorem.1 c3idx (("go").data) (2 / 10) (8 / 10) (1 / 2)
    (by intro pv hpv
        have : pv = ((("go").data, (1 : ℚ))) := by
          simpa [c3idx] using hpv
        rw [this]
        norm_num)
    (by norm_num [c3idx])
    0 (by decide)
    (by
      have htok : tokenize (("go").data) = [("go").data] := by decide
      rw [htok]
      unfold mongoBM25
      have hlu : List.lookup (("go").data) c3idx.inv = some [(0, 1)] := by decide
      simp only [List.foldl_cons, List.foldl_nil, hlu]
      have hpt : postTf [(0, 1)] 0 = 1 := by decide
      have hdl : c3idx.doclen.getD 0 0 = 1 := by decide
      have hidfv : List.lookup (("go").data) c3idx.idf = some 1 := by
        simp [c3idx, List.lookup]
      rw [hpt, hdl, hidfv]
      norm_num [bm25TermMongo, c3idx])

/-- Helper: the `elif` chain of `get_suggestions` assigns exactly the best
(lowest-numbered) applicable tier. -/
theorem tierOf_best (preL preSq t : Chars) (tier : ℕ)
    (h : tierOf preL preSq t = some tier) :
    tierApplies preL preSq tier t ∧ ∀ s, s < tier → ¬ tierApplies preL preSq s t := by
  unfold tierOf at h
  split_ifs at h with h0 h1 h2 h3
  · cases h
    exact ⟨h0, fun s hs => absurd hs (Nat.not_lt_zero s)⟩
  · cases h
    refine ⟨h1, ?_⟩
    intro s hs
    interval_cases s
    · exact h0
  · cases h
    refine ⟨h2, ?_⟩
    intro s hs
    interval_cases s
    · exact h0
    · exact h1
  · cases h
    refine ⟨h3, ?_⟩
    intro s hs
    interval_cases s
    · exact h0
    · exact h1
    · exact h2

/-- Helper: the suggestion sort key comparison is transitive. -/
theorem sugLe_trans (idf : List (Chars × ℚ)) :
    ∀ a b c, sugLe idf a b = true → sugLe idf b c = true → sugLe idf a c = true := by
  intro a b c hab hbc
  unfold sugLe at *
  simp only [decide_eq_true_eq] at *
  rcases hab with h1 | ⟨h1, h1'⟩
  · rcases hbc with h2 | ⟨h2, h2'⟩
    · exact Or.inl (lt_trans h1 h2)
    · exact Or.inl (h2 ▸ h1)
  · rcases hbc with h2 | ⟨h2, h2'⟩
    · exact Or.inl (h1 ▸ h2)
    · exact Or.inr ⟨h1.trans h2, le_trans h1' h2'⟩

/-- Helper: the suggestion sort key comparison is total. -/
theorem sugLe_total (idf : List (Chars × ℚ)) :
    ∀ a b, sugLe idf a b = true ∨ sugLe idf b a = true := by
  intro a b
  unfold sugLe
  simp only [decide_eq_true_eq]
  rcases lt_trichotomy a.2 b.2 with h | h | h
  · exact Or.inl (Or.inl h)
  · rcases le_total
      (match List.lookup a.1 idf with | some v => (v : WithTop ℚ) | none => ⊤)
      (match List.lookup b.1 idf with | some v => (v : WithTop ℚ) | none => ⊤) with h' | h'
    · exact Or.inl (Or.inr ⟨h, h'⟩)
    · exact Or.inr (Or.inr ⟨h.symm, h'⟩)
  · exact Or.inr (Or.inl h)

/-- Helper: appending an unseen element preserves `Nodup`. -/
theorem nodup_append_one (acc : List Chars) (t : Chars)
    (hn : acc.Nodup) (hmem : ¬ acc.contains t = true) : (acc ++ [t]).Nodup := by
  rw [List.nodup_append]
  refine ⟨hn, List.nodup_singleton t, ?_⟩
  intro a ha hb
  rw [List.mem_singleton] at hb
  subst hb
  exact hmem (by simpa using ha)

/-- Helper: the title merge loop preserves `Nodup`. -/
theorem addTitles_nodup : ∀ (ts acc : List Chars), acc.Nodup → (addTitles acc ts).Nodup
  | [], acc, h => h
  | t :: ts, acc, h => by
    unfold addTitles
    by_cases hc : acc.contains t
    · rw [if_pos hc]
      exact addTitles_nodup ts acc h
    · rw [if_neg hc]
      exact addTitles_nodup ts (acc ++ [t]) (nodup_append_one acc t h hc)

/-- Helper: the term merge loop preserves `Nodup`. -/
theorem addTerms_nodup (limit : ℕ) :
    ∀ (ts acc : List Chars), acc.Nodup → (addTerms limit acc ts).Nodup
  | [], acc, h => h
  | t :: ts, acc, h => by
    unfold addTerms
    by_cases hc : ¬ acc.contains t ∧ acc.length < limit
    · rw [if_pos hc]
      exact addTerms_nodup limit ts (acc ++ [t]) (nodup_append_one acc t h hc.1)
    · rw [if_neg hc]
      exact addTerms_nodup limit ts acc h

/-- C5: (1) every entry of `matching_terms` is a vocabulary term paired
with its best (lowest-numbered) applicable tier; (2) the term suggestions
are sorted by ascending tier, ties broken by ascending IDF (the pairwise
key comparison holds along the sorted list); (3) the merged suggestion
output contains no duplicate strings and has length at most `limit`. -/
theorem c5_theorem :
    (∀ (idf : List (Chars × ℚ)) (preL preSq t : Chars) (tier : ℕ),
      (t, tier) ∈ matchingTerms idf preL preSq →
      t ∈ idf.map Prod.fst ∧ tierApplies preL preSq tier t ∧
        ∀ s, s < tier → ¬ tierApplies preL preSq s t) ∧
    (∀ (idf : List (Chars × ℚ)) (l : List (Chars × ℕ)),
      List.Pairwise (fun a b => sugLe idf a b = true) (stableSort (sugLe idf) l)) ∧
    (∀ (idxO : Option SIndex) (pre : Chars) (limit : ℕ),
      (get_suggestions idxO pre limit).Nodup ∧
      (get_suggestions idxO pre limit).length ≤ limit) := by
  refine ⟨?_, ?_, ?_⟩
  · intro idf preL preSq t tier hmem
    unfold matchingTerms at hmem
    obtain ⟨t', ht', heq⟩ := List.mem_filterMap.mp hmem
    match hto : tierOf preL preSq t' with
    | none => rw [hto] at heq; cases heq
    | some k =>
      rw [hto] at heq
      simp only [Option.map_some', Option.some.injEq, Prod.mk.injEq] at heq
      obtain ⟨rfl, rfl⟩ := heq
      exact ⟨ht', tierOf_best preL preSq t' k hto⟩
  · intro idf l
    exact stableSort_pairwise (sugLe idf) (sugLe_trans idf) (sugLe_total idf) l
  · intro idxO pre limit
    match idxO with
    | none => exact ⟨List.nodup_nil, by simp [get_suggestions]⟩
    | some idx =>
      unfold get_suggestions getSuggestionsIdx
      dsimp only
      constructor
      · refine List.Nodup.sublist (List.take_sublist _ _) ?_
        exact addTerms_nodup limit _ _ (addTitles_nodup _ [] List.nodup_nil)
      · exact List.length_take_le _ _

/-- C5, witness: on the spec's own vocabulary example
`{forloop, for, format}` with prefix `"for"`, `forloop` is matched at its
best tier 0, and the merged suggestions for the concrete index are
duplicate-free with length at most the limit 8. -/
theorem c5_witness :
    ((("forloop").data ∈ c5idx.idf.map Prod.fst ∧
        tierApplies (("for").data) (("for").data) 0 (("forloop").data) ∧
        ∀ s, s < 0 → ¬ tierApplies (("for").data) (("for").data) s (("forloop").data)) ∧
      ((get_suggestions (some c5idx) (("for").data) 8).Nodup ∧
        (get_suggestions (some c5idx) (("for").data) 8).length ≤ 8)) :=
  ⟨c5_theorem.1 c5idx.idf (("for").data) (("for").data) (("forloop").data) 0 (by decide),
    c5_theorem.2.2 (some c5idx) (("for").data) 8⟩

/-- Helper: the batch loop keeps `visited` duplicate-free, append-only,
and bounded by `maxPages`. -/
theorem processLoop_inv (oracle : FetchOracle) (timeO : ℕ → Bool)
    (startUrl : Chars) (maxDepth maxPages batchSize : ℕ) :
    ∀ (fuel steps processed : ℕ) (queue : List FrontierEntry)
      (visited : List Chars) (nodes : List NodeRec),
      visited.Nodup → visited.length ≤ maxPages →
      (processLoop oracle timeO startUrl maxDepth maxPages batchSize
        fuel steps processed queue visited nodes).2.1.Nodup ∧
      (processLoop oracle timeO startUrl maxDepth maxPages batchSize
        fuel steps processed queue visited nodes).2.1.length ≤ maxPages ∧
      ∃ t, (processLoop oracle timeO startUrl maxDepth maxPages batchSize
        fuel steps processed queue visited nodes).2.1 = visited ++ t := by
  intro fuel
  induction fuel with
  | zero =>
    intro steps processed queue visited nodes hn hl
    exact ⟨hn, hl, [], by simp [processLoop]⟩
  | succ fuel' ih =>
    intro steps processed queue visited nodes hn hl
    unfold processLoop
    match queue with
    | [] => exact ⟨hn, hl, [], by simp⟩
    | cur :: qrest =>
      dsimp only
      by_cases hbs : ¬ processed < batchSize
      · rw [if_pos hbs]
        exact ⟨hn, hl, [], by simp⟩
      · rw [if_neg hbs]
        by_cases hto : timeO steps
        · rw [if_pos hto]
          exact ⟨hn, hl, [], by simp⟩
        · rw [if_neg hto]
          by_cases hmp : maxPages ≤ visited.length
          · rw [if_pos hmp]
            exact ⟨hn, hl, [], by simp⟩
          · rw [if_neg hmp]
            by_cases hv : visited.contains cur.url
            · rw [if_pos hv]
              exact ih (steps + 1) processed qrest visited nodes hn hl
            · rw [if_neg hv]
              have hn' : (visited ++ [cur.url]).Nodup := nodup_append_one visited cur.url hn hv
              have hl' : (visited ++ [cur.url]).length ≤ maxPages := by
                rw [List.length_append, List.length_singleton]
                omega
              cases hcp : crawl_page oracle startUrl cur.url with
              | some tl =>
                obtain ⟨title, links⟩ := tl
                dsimp only
                obtain ⟨ha, hb, t, ht⟩ := ih (steps + 1) (processed + 1) _ (visited ++ [cur.url]) _ hn' hl'
                exact ⟨ha, hb, cur.url :: t, by rw [ht]; simp⟩
              | none =>
                dsimp only
                obtain ⟨ha, hb, t, ht⟩ := ih (steps + 1) (processed + 1) qrest (visited ++ [cur.url]) _ hn' hl'
                exact ⟨ha, hb, cur.url :: t, by rw [ht]; simp⟩

/-- Helper: one `process_job_batch` call preserves the dedup and
`maxPages` invariants, extends `visited` append-only, and leaves
`maxPages` unchanged. -/
theorem process_job_batch_inv (oracle : FetchOracle) (timeO : ℕ → Bool)
    (bs dur : ℕ) (j : Job) (hn : j.visited.Nodup)
    (hl : j.visited.length ≤ j.maxPages) :
    (process_job_batch oracle timeO bs dur j).visited.Nodup ∧
    (process_job_batch oracle timeO bs dur j).visited.length ≤ j.maxPages ∧
    (process_job_batch oracle timeO bs dur j).maxPages = j.maxPages ∧
    ∃ t, (process_job_batch oracle timeO bs dur j).visited = j.visited ++ t := by
  unfold process_job_batch
  by_cases hc : j.status = JStatus.completed
  · rw [if_pos hc]
    exact ⟨hn, hl, rfl, [], by simp⟩
  · rw [if_neg hc]
    obtain ⟨ha, hb, t, ht⟩ := processLoop_inv oracle timeO j.startUrl j.maxDepth
      j.maxPages bs (j.queue.length + 10 * bs + 1) 0 0 j.queue j.visited j.nodes hn hl
    exact ⟨ha, hb, rfl, t, ht⟩

/-- Helper: any sequence of batches preserves the dedup and `maxPages`
invariants and extends `visited` append-only. -/
theorem runBatches_inv (oracle : FetchOracle) (timeOs : ℕ → ℕ → Bool)
    (bs : ℕ) (durs : ℕ → ℕ) :
    ∀ (k : ℕ) (j : Job), j.visited.Nodup → j.visited.length ≤ j.maxPages →
      (runBatches oracle timeOs bs durs k j).visited.Nodup ∧
      (runBatches oracle timeOs bs durs k j).visited.length ≤ j.maxPages ∧
      (runBatches oracle timeOs bs durs k j).maxPages = j.maxPages ∧
      ∃ t, (runBatches oracle timeOs bs durs k j).visited = j.visited ++ t
  | 0, j, hn, hl => ⟨hn, hl, rfl, ⟨[], by simp [runBatches]⟩⟩
  | k + 1, j, hn, hl => by
    unfold runBatches
    obtain ⟨ha, hb, hm, t, ht⟩ := process_job_batch_inv oracle (timeOs k) bs (durs k) j hn hl
    obtain ⟨ha2, hb2, hm2, t2, ht2⟩ := runBatches_inv oracle timeOs bs durs k
      (process_job_batch oracle (timeOs k) bs (durs k) j) ha (hm ▸ hb)
    refine ⟨ha2, ?_, by rw [hm2, hm], t ++ t2, by rw [ht2, ht, List.append_assoc]⟩
    rw [hm] at hb2
    exact hb2

/-- Helper: the streaming crawl loop keeps `visited` duplicate-free and
bounded by the effective page cap, for every fuel, fetch oracle and trim
selection (the trim branch is unreachable because the cap is at most
50). -/
theorem wsRun_inv (oracle : FetchOracle) (trimO : List Chars → List Chars)
    (startUrl : Chars) (maxDepth maxPagesEff : ℕ) (hcap : maxPagesEff ≤ 50) :
    ∀ (fuel : ℕ) (s : WState), s.visited.Nodup → s.visited.length ≤ maxPagesEff →
      (wsRun oracle trimO startUrl maxDepth maxPagesEff fuel s).visited.Nodup ∧
      (wsRun oracle trimO startUrl maxDepth maxPagesEff fuel s).visited.length ≤ maxPagesEff
  | 0, s, hn, hl => ⟨hn, hl⟩
  | fuel + 1, s, hn, hl => by
    unfold wsRun
    match hq : s.queue with
    | [] => exact ⟨hn, hl⟩
    | (url, depth, par) :: qrest =>
      dsimp only
      by_cases hfull : ¬ s.visited.length < maxPagesEff
      · rw [if_pos hfull]
        exact ⟨hn, hl⟩
      · rw [if_neg hfull]
        by_cases hskip : s.visited.contains url ∨ maxDepth < depth
        · rw [if_pos hskip]
          exact wsRun_inv oracle trimO startUrl maxDepth maxPagesEff hcap fuel _ hn hl
        · rw [if_neg hskip]
          have hnc : ¬ s.visited.contains url = true := fun h => hskip (Or.inl h)
          have hn' : (s.visited ++ [url]).Nodup := nodup_append_one s.visited url hn hnc
          have hl' : (s.visited ++ [url]).length ≤ maxPagesEff := by
            rw [List.length_append, List.length_singleton]
            omega
          cases hcp : ws_crawl_page oracle (s.visited ++ [url]) startUrl url with
          | some tl =>
            obtain ⟨title, links⟩ := tl
            dsimp only
            have htrim : ¬ ((s.pageCount + 1) % 10 = 0 ∧ 100 < (s.visited ++ [url]).length) := by
              rintro ⟨_, habs⟩
              rw [List.length_append, List.length_singleton] at habs
              omega
            rw [if_neg htrim]
            exact wsRun_inv oracle trimO startUrl maxDepth maxPagesEff hcap fuel _ hn' hl'
          | none =>
            dsimp only
            exact wsRun_inv oracle trimO startUrl maxDepth maxPagesEff hcap fuel _ hn' hl'

/-- C1, counterexample to the claim as stated: the crawlers deduplicate on
exact URL strings, not normalized URLs.  In the concrete batch run
`exJob`, the two links `http://a.com/x?a&b` and `http://a.com/x?b&a` —
the same URL after normalization — are both visited, so the visited set
maps to a duplicate under `norm_url`. -/
theorem c1_counterexample : ¬ List.Nodup (exJob.visited.map norm_url) := by decide

/-- C1, amended: for every crawl job and every sequence of batch or
streaming crawl steps, the job never visits the same URL *string* twice
(`visited` stays duplicate-free and only grows by appending
newly-crawled URLs), and the number of visited URLs never exceeds the
job's `maxPages` (for the streaming crawler, `min maxPages 50`, hence also
`maxPages`) at any point during processing.  Dedup is not applied to
*normalized* URLs: distinct spellings of the same normalized URL may each
be visited (see the counterexample). -/
theorem c1_theorem :
    (∀ (oracle : FetchOracle) (timeOs : ℕ → ℕ → Bool) (bs : ℕ) (durs : ℕ → ℕ)
      (k : ℕ) (j : Job), j.visited.Nodup → j.visited.length ≤ j.maxPages →
      (runBatches oracle timeOs bs durs k j).visited.Nodup ∧
      (runBatches oracle timeOs bs durs k j).visited.length ≤ j.maxPages ∧
      ∃ t, (runBatches oracle timeOs bs durs k j).visited = j.visited ++ t) ∧
    (∀ (oracle : FetchOracle) (trimO : List Chars → List Chars)
      (startUrl : Chars) (maxDepth maxPages fuel : ℕ),
      (wsRun oracle trimO startUrl maxDepth (min maxPages 50) fuel
        (wsInit startUrl)).visited.Nodup ∧
      (wsRun oracle trimO startUrl maxDepth (min maxPages 50) fuel
        (wsInit startUrl)).visited.length ≤ maxPages) := by
  constructor
  · intro oracle timeOs bs durs k j hn hl
    obtain ⟨ha, hb, _, ht⟩ := runBatches_inv oracle timeOs bs durs k j hn hl
    exact ⟨ha, hb, ht⟩
  · intro oracle trimO startUrl maxDepth maxPages fuel
    obtain ⟨ha, hb⟩ := wsRun_inv oracle trimO startUrl maxDepth (min maxPages 50)
      (min_le_right _ _) fuel (wsInit startUrl) List.nodup_nil (by simp [wsInit])
    exact ⟨ha, le_trans hb (min_le_left _ _)⟩

/-- C1, witness: the amended invariants instantiated on the concrete
batch run of the counterexample (three batches) and on a concrete
streaming run. -/
theorem c1_witness :
    ((runBatches exOracle (fun _ _ => false) 5 (fun _ => 1) 3
        (create_job exStart 2 10)).visited.Nodup ∧
      (runBatches exOracle (fun _ _ => false) 5 (fun _ => 1) 3
        (create_job exStart 2 10)).visited.length ≤ (create_job exStart 2 10).maxPages ∧
      ∃ t, (runBatches exOracle (fun _ _ => false) 5 (fun _ => 1) 3
        (create_job exStart 2 10)).visited = (create_job exStart 2 10).visited ++ t) ∧
    ((wsRun exOracle id exStart 2 (min 10 50) 20 (wsInit exStart)).visited.Nodup ∧
      (wsRun exOracle id exStart 2 (min 10 50) 20 (wsInit exStart)).visited.length ≤ 10) :=
  ⟨c1_theorem.1 exOracle (fun _ _ => false) 5 (fun _ => 1) 3
    (create_job exStart 2 10) (by decide) (by decide),
    c1_theorem.2 exOracle id exStart 2 10 20⟩

/-- Helper: splitting at the first `c` of the explicitly placed
occurrence. -/
theorem splitAtFirstChar_append (c : Char) (a b : Chars) (h : c ∉ a) :
    splitAtFirstChar c (a ++ c :: b) = (a, some b) := by
  induction a with
  | nil => simp [splitAtFirstChar]
  | cons x xs ih =>
    have hx : x ≠ c := fun hxc => h (hxc ▸ List.mem_cons_self x xs)
    have hxs : c ∉ xs := fun hm => h (List.mem_cons_of_mem x hm)
    simp only [List.cons_append, splitAtFirstChar, if_neg hx]
    rw [List.append_eq, ih hxs]

/-- Helper: splitting at an absent character returns the whole list. -/
theorem splitAtFirstChar_not_mem (c : Char) (l : Chars) (h : c ∉ l) :
    splitAtFirstChar c l = (l, none) := by
  induction l with
  | nil => rfl
  | cons x xs ih =>
    have hx : x ≠ c := fun hxc => h (hxc ▸ List.mem_cons_self x xs)
    have hxs : c ∉ xs := fun hm => h (List.mem_cons_of_mem x hm)
    simp only [splitAtFirstChar, if_neg hx, ih hxs]

/-- Helper: `takeWhile` passes over a block of satisfying elements. -/
theorem takeWhile_all_append (pred : Char → Bool) (a b : Chars)
    (ha : ∀ c ∈ a, pred c = true) :
    (a ++ b).takeWhile pred = a ++ b.takeWhile pred := by
  induction a with
  | nil => simp
  | cons x xs ih =>
    have hx : pred x = true := ha x (List.mem_cons_self x xs)
    simp only [List.cons_append, List.takeWhile_cons, hx, if_true]
    rw [ih (fun c hc => ha c (List.mem_cons_of_mem x hc))]

/-- Helper: `dropWhile` drops a block of satisfying elements. -/
theorem dropWhile_all_append (pred : Char → Bool) (a b : Chars)
    (ha : ∀ c ∈ a, pred c = true) :
    (a ++ b).dropWhile pred = b.dropWhile pred := by
  induction a with
  | nil => simp
  | cons x xs ih =>
    have hx : pred x = true := ha x (List.mem_cons_self x xs)
    simp only [List.cons_append, List.dropWhile_cons, hx, if_true]
    exact ih (fun c hc => ha c (List.mem_cons_of_mem x hc))

/-- Helper: membership in a `mkUrl` splits into its components. -/
theorem mem_mkUrl (c : Char) (s h p q : Chars) (hc : c ∈ mkUrl s h p q) :
    c ∈ s ∨ c = ':' ∨ c = '/' ∨ c ∈ h ∨ c ∈ p ∨ c = '?' ∨ c ∈ q := by
  unfold mkUrl at hc
  by_cases hq : q = []
  · rw [if_pos hq] at hc
    simp only [List.mem_append, List.mem_cons] at hc
    tauto
  · rw [if_neg hq] at hc
    simp only [List.mem_append, List.mem_cons] at hc
    tauto

/-- `splitNetloc` on a `//`-prefixed rest takes the netloc up to the
first `/`, `?` or `#`. -/
theorem splitNetloc_slash (t : Chars) :
    splitNetloc ('/' :: '/' :: t) =
      (t.takeWhile (fun c => !isNetlocEnd c), t.dropWhile (fun c => !isNetlocEnd c)) := rfl

/-- Helper: `urlsplit` recovers the components of a well-formed http(s)
URL: an http/https scheme, a nonempty host free of `/?#:`, an absolute
path free of `?#`, and a query free of `#`, all free of tab/CR/LF. -/
theorem urlsplit_mkUrl (s h p q : Chars)
    (hs : s = ("http").data ∨ s = ("https").data)
    (hh : ∀ c ∈ h, ¬(c = '/' ∨ c = '?' ∨ c = '#' ∨ c = ':') ∧ isUnsafeUrlByte c = false)
    (hp1 : p.take 1 = ['/'])
    (hp : ∀ c ∈ p, ¬(c = '?' ∨ c = '#') ∧ isUnsafeUrlByte c = false)
    (hq : ∀ c ∈ q, c ≠ '#' ∧ isUnsafeUrlByte c = false) :
    urlsplit [] (mkUrl s h p q) = ⟨s, h, p, q, []⟩ := by
  have hs1 : s ≠ [] := by rcases hs with rfl | rfl <;> decide
  have hs2 : ':' ∉ s := by rcases hs with rfl | rfl <;> decide
  have hs3 : (s.headD 'a').isAlpha = true := by rcases hs with rfl | rfl <;> decide
  have hs4 : s.all isSchemeChar = true := by rcases hs with rfl | rfl <;> decide
  have hs5 : lowerChars s = s := by rcases hs with rfl | rfl <;> decide
  have hs6 : ∀ c ∈ s, isUnsafeUrlByte c = false := by
    rcases hs with rfl | rfl <;> decide
  have hs7 : ∀ c ∈ s, isC0OrSpace c = false := by
    rcases hs with rfl | rfl <;> decide
  obtain ⟨p2, rfl⟩ : ∃ p2, p = '/' :: p2 := by
    cases p with
    | nil => simp [List.take] at hp1
    | cons a p2 =>
      have ha : a = '/' := by simpa [List.take] using hp1
      exact ⟨p2, by rw [ha]⟩
  have hdrop : List.dropWhile isC0OrSpace (mkUrl s h ('/' :: p2) q) =
      mkUrl s h ('/' :: p2) q := by
    match s, hs1 with
    | x :: s2, _ =>
      have hx : isC0OrSpace x = false := hs7 x (List.mem_cons_self x s2)
      unfold mkUrl
      rw [List.cons_append, List.dropWhile_cons, hx]
      simp
  have hfil : List.filter (fun c => !isUnsafeUrlByte c) (mkUrl s h ('/' :: p2) q) =
      mkUrl s h ('/' :: p2) q := by
    refine List.filter_eq_self.mpr ?_
    intro c hc
    rcases mem_mkUrl c s h ('/' :: p2) q hc with h1 | h1 | h1 | h1 | h1 | h1 | h1
    · rw [hs6 c h1]; rfl
    · subst h1; rfl
    · subst h1; rfl
    · rw [(hh c h1).2]; rfl
    · rw [(hp c h1).2]; rfl
    · subst h1; rfl
    · rw [(hq c h1).2]; rfl
  have hqmem : '#' ∉ ('/' :: p2) ++ (if q = [] then [] else '?' :: q) := by
    intro hmem
    rcases List.mem_append.mp hmem with h1 | h1
    · exact (hp '#' h1).1 (Or.inr rfl)
    · by_cases hq0 : q = []
      · rw [if_pos hq0] at h1
        exact List.not_mem_nil '#' h1
      · rw [if_neg hq0] at h1
        rcases List.mem_cons.mp h1 with h2 | h2
        · cases h2
        · exact (hq '#' h2).1 rfl
  have hnoq : '?' ∉ ('/' :: p2) := by
    intro hmem
    exact (hp '?' hmem).1 (Or.inl rfl)
  have hhpred : ∀ c ∈ h, (fun c => !isNetlocEnd c) c = true := by
    intro c hc
    have hcc := (hh c hc).1
    simp only [isNetlocEnd, Bool.not_eq_true', Bool.or_eq_false_iff,
      decide_eq_false_iff_not]
    exact ⟨⟨fun he => hcc (Or.inl he), fun he => hcc (Or.inr (Or.inl he))⟩,
      fun he => hcc (Or.inr (Or.inr (Or.inl he)))⟩
  unfold urlsplit
  rw [hdrop, hfil]
  unfold mkUrl
  dsimp only
  rw [splitAtFirstChar_append ':' s _ hs2]
  dsimp only
  rw [if_pos ⟨hs1, hs3, hs4⟩, hs5]
  dsimp only
  rw [List.append_assoc, List.cons_append]
  rw [splitNetloc_slash]
  dsimp only
  rw [takeWhile_all_append _ h _ hhpred, dropWhile_all_append _ h _ hhpred]
  have htw : List.takeWhile (fun c => !isNetlocEnd c)
      ('/' :: (p2 ++ if q = [] then [] else '?' :: q)) = [] := by
    rw [List.takeWhile_cons]
    norm_num [isNetlocEnd]
  have hdw : List.dropWhile (fun c => !isNetlocEnd c)
      ('/' :: (p2 ++ if q = [] then [] else '?' :: q)) =
      '/' :: (p2 ++ if q = [] then [] else '?' :: q) := by
    rw [List.dropWhile_cons]
    norm_num [isNetlocEnd]
  rw [htw, hdw, List.append_nil]
  have hfrag := splitAtFirstChar_not_mem '#'
    (('/' :: p2) ++ (if q = [] then [] else '?' :: q)) hqmem
  rw [List.cons_append] at hfrag
  rw [hfrag]
  dsimp only
  by_cases hq0 : q = []
  · subst hq0
    simp only [if_pos] at *
    rw [List.append_nil]
    rw [splitAtFirstChar_not_mem '?' ('/' :: p2) hnoq]
  · rw [if_neg hq0]
    have hsp := splitAtFirstChar_append '?' ('/' :: p2) q hnoq
    rw [List.cons_append] at hsp
    rw [hsp]
/-- Helper: `norm_url` fixes every URL assembled from an http(s) scheme, a
nonempty lowercase host free of `/?#:`, an absolute path that `urljoin`
leaves unchanged, and an already-sorted query. -/
theorem norm_url_mkUrl (s h p q : Chars)
    (hs : s = ("http").data ∨ s = ("https").data)
    (hh0 : h ≠ [])
    (hh : ∀ c ∈ h, ¬(c = '/' ∨ c = '?' ∨ c = '#' ∨ c = ':') ∧ isUnsafeUrlByte c = false)
    (hhl : lowerChars h = h)
    (hp1 : p.take 1 = ['/'])
    (hp : ∀ c ∈ p, ¬(c = '?' ∨ c = '#') ∧ isUnsafeUrlByte c = false)
    (hpj : urljoinRoot p = p)
    (hq : ∀ c ∈ q, c ≠ '#' ∧ isUnsafeUrlByte c = false)
    (hqs : joinChar '&' (stableSort pyStrLe ((splitOnChar '&' q).filter (fun x => x ≠ []))) = q) :
    norm_url (mkUrl s h p q) = mkUrl s h p q := by
  have hs5 : lowerChars s = s := by rcases hs with rfl | rfl <;> decide
  have hs1 : s ≠ [] := by rcases hs with rfl | rfl <;> decide
  have hsc : ':' ∉ h := fun hm => (hh ':' hm).1 (Or.inr (Or.inr (Or.inr rfl)))
  have hstrip : stripDefaultPort s h = h := by
    unfold stripDefaultPort
    rw [if_neg]
    rintro (⟨_, hsuf⟩ | ⟨_, hsuf⟩)
    · exact hsc (List.IsSuffix.subset (List.isSuffixOf_iff_suffix.mp hsuf) (by decide))
    · exact hsc (List.IsSuffix.subset (List.isSuffixOf_iff_suffix.mp hsuf) (by decide))
  have hp0 : p ≠ [] := by
    intro he
    rw [he] at hp1
    simp [List.take] at hp1
  unfold norm_url
  rw [urlsplit_mkUrl s h p q hs hh hp1 hp hq]
  dsimp only
  rw [hhl, hstrip, if_neg hp0, hpj, hqs, hs5]
  unfold urlunsplit
  dsimp only
  rw [if_pos (Or.inl hh0)]
  rw [if_neg (fun hc : p ≠ [] ∧ List.take 1 p ≠ ['/'] => hc.2 hp1)]
  by_cases hq0 : q = []
  · subst hq0
    rw [if_neg (fun hc : ([] : Chars) ≠ [] => hc rfl)]
    simp [mkUrl, hs1]
  · rw [if_pos hq0]
    simp [mkUrl, hq0, hs1, List.append_assoc]
/-- C7 counterexample: `norm_url` is not idempotent.  On
`"http://a.com:80:80/x"` the first pass strips one `":80"` suffix from the
netloc, leaving `"http://a.com:80/x"`, and a second pass strips the other,
so normalizing twice differs from normalizing once. -/
theorem c7_counterexample :
    norm_url (norm_url (("http://a.com:80:80/x").data)) ≠
      norm_url (("http://a.com:80:80/x").data) := by decide

/-- C7 (corrected): `norm_url` is idempotent on every URL whose normalized
form is a well-formed http(s) URL — http or https scheme, nonempty
lowercase host free of `/`, `?`, `#`, `:` and tab/CR/LF, an absolute path
free of `?`, `#` and tab/CR/LF that `urljoin("/", ·)` leaves unchanged, and
an already-sorted nonempty-part `&`-query free of `#` and tab/CR/LF — and
the two default-port spellings normalize equal:
`norm_url "http://a.com:80/x" = norm_url "http://a.com/x"`.  Unconditional
idempotence is refuted by the counterexample above. -/
theorem c7_theorem :
    (∀ u s h p q : Chars,
      s = ("http").data ∨ s = ("https").data →
      h ≠ [] →
      (∀ c ∈ h, ¬(c = '/' ∨ c = '?' ∨ c = '#' ∨ c = ':') ∧ isUnsafeUrlByte c = false) →
      lowerChars h = h →
      p.take 1 = ['/'] →
      (∀ c ∈ p, ¬(c = '?' ∨ c = '#') ∧ isUnsafeUrlByte c = false) →
      urljoinRoot p = p →
      (∀ c ∈ q, c ≠ '#' ∧ isUnsafeUrlByte c = false) →
      joinChar '&' (stableSort pyStrLe ((splitOnChar '&' q).filter (fun x => x ≠ []))) = q →
      norm_url u = mkUrl s h p q →
      norm_url (norm_url u) = norm_url u) ∧
    norm_url (("http://a.com:80/x").data) = norm_url (("http://a.com/x").data) := by
  constructor
  · intro u s h p q hs hh0 hh hhl hp1 hp hpj hq hqs hnorm
    rw [hnorm, norm_url_mkUrl s h p q hs hh0 hh hhl hp1 hp hpj hq hqs]
  · decide

/-- C7 witness: the idempotence part of `c7_theorem` applied to the URL
`"http://a.com:80/x"`, whose normalized form decomposes as scheme `http`,
host `a.com`, path `/x`, empty query. -/
theorem c7_witness :
    norm_url (norm_url (("http://a.com:80/x").data)) =
      norm_url (("http://a.com:80/x").data) :=
  c7_theorem.1 (("http://a.com:80/x").data) (("http").data) (("a.com").data)
    (("/x").data) []
    (Or.inl rfl) (by decide) (by decide) (by decide) (by decide) (by decide)
    (by decide) (by decide) (by decide) (by decide)
